import Mathlib

/-!
Verification development for the zendesk-helpcenter-cms synchronization tool.

The development shallowly embeds the Python sources (`utils.py`, `model.py`,
`filesystem.py`, `zendesk.py`, `translate.py`, `main.py`) into Lean:

* JSON values are the inductive `JVal`; JSON mappings are association lists
  (`JObj`).  The Python `json.dumps`/`json.loads` round trip is modelled as the
  identity on parsed values, with `json.dumps(-, sort_keys=True)` modelled by
  sorting the association list by key.
* The local file tree is a finite map from relative paths (component lists) to
  file payloads; directories are implicit prefixes, as in a POSIX tree.
* External text transformations (`unicodedata` NFKD + ASCII coercion,
  `html2text`, `markdown`, the image-CDN rewrite and MD5) are parameters of the
  embedded functions; theorems state the assumptions those libraries satisfy.
* Remote services (Zendesk, WebTranslateIt) are modelled as oracles describing
  the remote state; functions that issue remote calls either count the calls or
  emit an explicit event trace.
-/

/-- JSON value as produced by `json.loads`. -/
inductive JVal where
  | s (v : String)
  | n (v : Int)
  | b (v : Bool)
  | null
  | arr (vs : List JVal)
  | obj (m : List (String × JVal))

/-- JSON mapping (Python `dict` with string keys, insertion ordered). -/
abbrev JObj := List (String × JVal)

/-- Python's `d.get(k)` / `d[k]` lookup on a JSON mapping. -/
def jGet (m : JObj) (k : String) : Option JVal :=
  List.lookup k m

/-- Extracts a Python `str` from a JSON value. -/
def jAsStr : JVal → Option String
  | .s v => some v
  | _ => none

/-- Python truthiness of an optional JSON value (as in `if not item.zendesk_id`):
`None`, `0`, `''`, `False`, `[]`, `{}` are falsy. -/
def jTruthy : Option JVal → Bool
  | none => false
  | some (.s v) => !v.isEmpty
  | some (.n v) => v != 0
  | some (.b v) => v
  | some .null => false
  | some (.arr vs) => !vs.isEmpty
  | some (.obj m) => !m.isEmpty

/-- Python `str(-)` of an optional JSON value, as used by `'...{}'.format(id)`
when building request URLs.  Container renderings are abbreviated; the result
is only ever used as an opaque key into the remote-state oracles. -/
def pyStr : Option JVal → String
  | none => "None"
  | some (.s v) => v
  | some (.n v) => toString v
  | some (.b true) => "True"
  | some (.b false) => "False"
  | some .null => "None"
  | some (.arr _) => "<arr>"
  | some (.obj _) => "<obj>"

/-- Model of `Base.meta`'s setter, `self._meta = value or {}`: a falsy value
(`None` or the empty mapping) is coerced to the empty mapping. -/
def pySetMeta : Option JObj → JObj
  | none => []
  | some m => if m.isEmpty then [] else m

/-- Model of `Base.zendesk_id`: `self._meta.get('id')`. -/
def zendeskId (m : JObj) : Option JVal :=
  jGet m "id"

/-- Model of `Base.translate_ids`: `self._meta.get('webtranslateit_ids', [])`. -/
def translateIds (m : JObj) : JVal :=
  (jGet m "webtranslateit_ids").getD (.arr [])

/-- The elements of `Base.translate_ids` as iterated by the WebTranslateIt
remover (`for translate_id in item.translate_ids`); the stored value is a JSON
list. -/
def translateIdList (m : JObj) : List JVal :=
  match jGet m "webtranslateit_ids" with
  | some (.arr vs) => vs
  | _ => []

/-- Lexicographic code-point comparison of character lists (Python `str <`). -/
def keyLt : List Char → List Char → Bool
  | [], [] => false
  | [], _ :: _ => true
  | _ :: _, [] => false
  | a :: as, b :: bs =>
    if a.toNat < b.toNat then true
    else if b.toNat < a.toNat then false
    else keyLt as bs

/-- Python string `<` on key strings. -/
def strKeyLt (a b : String) : Bool := keyLt a.data b.data

/-- Insertion step for sorting an association list by key (Python
`json.dumps(-, sort_keys=True)` serializes keys in ascending string order). -/
def insKey (x : String × JVal) : JObj → JObj
  | [] => [x]
  | y :: ys => if strKeyLt x.1 y.1 then x :: y :: ys else y :: insKey x ys

/-- Key-sorting of a JSON mapping, modelling `json.dumps(-, sort_keys=True)`
followed by `json.loads`. -/
def sortByKey (m : JObj) : JObj :=
  m.foldr insKey []

/-! ## Character and string utilities (`utils.py`)

`slugify` operates, after the `unicodedata.normalize('NFKD', -)
.encode('ascii', 'ignore')` step, on pure ASCII text, so the regex character
classes `\w` and `\s` coincide with their ASCII meanings; the classes below are
the ASCII classes. -/

/-- ASCII uppercase letter. -/
def cUpper (c : Char) : Bool := 65 ≤ c.toNat && c.toNat ≤ 90

/-- ASCII lowercase letter. -/
def cLower (c : Char) : Bool := 97 ≤ c.toNat && c.toNat ≤ 122

/-- ASCII digit. -/
def cDigit (c : Char) : Bool := 48 ≤ c.toNat && c.toNat ≤ 57

/-- Regex `\w` on ASCII text: letters, digits and underscore. -/
def wordChar (c : Char) : Bool := cLower c || cUpper c || cDigit c || c == '_'

/-- Regex `\s` on ASCII text: space, tab, newline, vertical tab, form feed,
carriage return. -/
def spaceRe (c : Char) : Bool :=
  c == ' ' || c == '\t' || c == '\n' || c == '\x0b' || c == '\x0c' || c == '\r'

/-- Character class of the run-collapsing regex `[-\s]+`. -/
def dashSpace (c : Char) : Bool := spaceRe c || c == '-'

/-- Characters kept by `re.sub('[^\w\s-]', '', value)`. -/
def wordKeep (c : Char) : Bool := wordChar c || spaceRe c || c == '-'

/-- ASCII lowercasing of one character (Python `str.lower` on ASCII input). -/
def lowerChar (c : Char) : Char :=
  if cUpper c then Char.ofNat (c.toNat + 32) else c

/-- Python `str.lower()` on ASCII text, as used by `utils.to_zendesk_locale`. -/
def strLower (s : String) : String :=
  ⟨s.data.map lowerChar⟩

/-- Python `str.strip()` on text whose characters are ASCII word characters,
spaces or hyphens (the only characters left after the preceding `re.sub`). -/
def stripChars (l : List Char) : List Char :=
  ((l.dropWhile spaceRe).reverse.dropWhile spaceRe).reverse

/-- Worker for `re.sub('[-\s]+', '-', value)`.  The flag records whether the
scan is inside a hyphen/whitespace run whose replacement hyphen has already
been emitted. -/
def collapseGo : Bool → List Char → List Char
  | _, [] => []
  | inRun, c :: rest =>
    if dashSpace c then
      if inRun then collapseGo true rest
      else '-' :: collapseGo true rest
    else c :: collapseGo false rest

/-- Model of `re.sub('[-\s]+', '-', value)`: every maximal run of hyphens and
whitespace becomes a single hyphen. -/
def collapseDS (l : List Char) : List Char := collapseGo false l

/-- Core of `utils.slugify` after the `unicodedata`/ASCII step: strip
non-word/non-space/non-hyphen characters, trim, lowercase, collapse hyphen and
whitespace runs to single hyphens. -/
def slugifyChars (l : List Char) : List Char :=
  collapseDS ((stripChars (l.filter wordKeep)).map lowerChar)

/-- Model of `utils.slugify`, parametric in the external
`unicodedata.normalize('NFKD', -).encode('ascii', 'ignore').decode('ascii')`
step `nfkd` (its output is always pure ASCII, and it is the identity on ASCII
input). -/
def slugify (nfkd : String → String) (s : String) : String :=
  ⟨slugifyChars (nfkd s).data⟩

/-- Concrete stand-in for the `unicodedata` NFKD + ASCII-coercion step: drops
every non-ASCII character.  It agrees with the library on ASCII input (where
both are the identity), which is the only case the concrete scenarios need. -/
def asciiFilter (s : String) : String :=
  ⟨s.data.filter (fun c => c.toNat ≤ 127)⟩

/-- `utils.slugify` with the concrete ASCII-coercion step. -/
def slugify0 : String → String :=
  slugify asciiFilter

/-- Assumption satisfied by the `unicodedata` NFKD + ASCII-encode step: it is
the identity on strings that are already pure ASCII. -/
def AsciiId (nfkd : String → String) : Prop :=
  ∀ s : String, (∀ c ∈ s.data, c.toNat ≤ 127) → nfkd s = s

/-- Characters actually producible by `slugify`: ASCII lowercase, digits,
hyphen and underscore. -/
def slugOutChar (c : Char) : Bool := cLower c || cDigit c || c == '-' || c == '_'

/-- Character set asserted by the specification for `slugify` output:
`[a-z0-9-]` (no underscore). -/
def specSlugChar (c : Char) : Bool := cLower c || cDigit c || c == '-'

/-- Adjacent-hyphen freedom of a character list. -/
def noDD : List Char → Bool
  | c :: d :: rest => !(c == '-' && d == '-') && noDD (d :: rest)
  | _ => true

/-- Head of the list is not a hyphen. -/
def headOk : List Char → Bool
  | '-' :: _ => false
  | _ => true

theorem dropWhile_eq_self_all {p : Char → Bool} {l : List Char}
    (h : ∀ c ∈ l, p c = false) : l.dropWhile p = l := by
  cases l with
  | nil => rfl
  | cons a t => simp [List.dropWhile, h a (by simp)]

theorem map_eq_self_of_fix {f : Char → Char} {l : List Char}
    (h : ∀ c ∈ l, f c = c) : l.map f = l := by
  induction l with
  | nil => rfl
  | cons a l ih =>
    simp only [List.map_cons]
    rw [h a (by simp), ih fun c hc => h c (by simp [hc])]

theorem mem_of_dropWhile {p : Char → Bool} {l : List Char} {c : Char}
    (h : c ∈ l.dropWhile p) : c ∈ l := by
  induction l with
  | nil => simp at h
  | cons a t ih =>
    simp only [List.dropWhile] at h
    cases hp : p a with
    | true => rw [hp] at h; exact List.mem_cons_of_mem a (ih h)
    | false => rw [hp] at h; exact h

theorem mem_of_stripChars {l : List Char} {c : Char} (h : c ∈ stripChars l) :
    c ∈ l := by
  unfold stripChars at h
  have h1 := mem_of_dropWhile (List.mem_reverse.mp h)
  exact mem_of_dropWhile (List.mem_reverse.mp h1)

theorem toNat_ofNat_small {n : Nat} (h : n < 55296) : (Char.ofNat n).toNat = n := by
  have hv : n.isValidChar := Or.inl h
  unfold Char.ofNat
  rw [dif_pos hv]
  unfold Char.ofNatAux Char.toNat
  simp [UInt32.toNat, UInt32.ofNatCore]

theorem spaceRe_toNat {c : Char} (h : spaceRe c = true) : c.toNat ≤ 32 := by
  simp only [spaceRe, Bool.or_eq_true, beq_iff_eq] at h
  rcases h with ((((rfl | rfl) | rfl) | rfl) | rfl) | rfl <;> decide

theorem slugOutChar_bounds {c : Char} (h : slugOutChar c = true) :
    45 ≤ c.toNat ∧ c.toNat ≤ 122 ∧ ¬ (65 ≤ c.toNat ∧ c.toNat ≤ 90) := by
  simp only [slugOutChar, cLower, cDigit, Bool.or_eq_true, Bool.and_eq_true,
    decide_eq_true_eq, beq_iff_eq] at h
  rcases h with ((h | h) | rfl) | rfl
  · exact ⟨by omega, by omega, by omega⟩
  · exact ⟨by omega, by omega, by omega⟩
  · exact ⟨by decide, by decide, by decide⟩
  · exact ⟨by decide, by decide, by decide⟩

theorem slugOutChar_not_space {c : Char} (h : slugOutChar c = true) :
    spaceRe c = false := by
  obtain ⟨h1, _, _⟩ := slugOutChar_bounds h
  rw [Bool.eq_false_iff]
  intro hs
  have := spaceRe_toNat hs
  omega

theorem slugOutChar_not_upper {c : Char} (h : slugOutChar c = true) :
    cUpper c = false := by
  obtain ⟨_, _, h3⟩ := slugOutChar_bounds h
  rw [Bool.eq_false_iff]
  intro hu
  simp only [cUpper, Bool.and_eq_true, decide_eq_true_eq] at hu
  exact h3 hu

theorem not_dash_of_not_dashSpace {c : Char} (hne : dashSpace c = false) :
    (c == '-') = false := by
  rcases hbe : c == '-' with _ | _
  · rfl
  · rw [dashSpace, hbe] at hne
    simp at hne

theorem lowerChar_out (c : Char) (h : wordKeep c = true) :
    slugOutChar (lowerChar c) = true ∨ spaceRe (lowerChar c) = true := by
  unfold lowerChar
  by_cases hu : cUpper c = true
  · left
    rw [if_pos hu]
    have hb : 65 ≤ c.toNat ∧ c.toNat ≤ 90 := by
      simpa [cUpper, Bool.and_eq_true, decide_eq_true_eq] using hu
    have ht : (Char.ofNat (c.toNat + 32)).toNat = c.toNat + 32 :=
      toNat_ofNat_small (by omega)
    simp only [slugOutChar, cLower, cDigit, ht, Bool.or_eq_true, Bool.and_eq_true,
      decide_eq_true_eq]
    exact Or.inl (Or.inl (Or.inl ⟨by omega, by omega⟩))
  · rw [if_neg hu]
    simp only [wordKeep, wordChar, Bool.or_eq_true] at h
    rcases h with ((((hl | hup) | hd) | he) | hs) | hd
    · left; simp [slugOutChar, hl]
    · exact absurd hup hu
    · left; simp [slugOutChar, hd]
    · left; simp [slugOutChar, he]
    · right; exact hs
    · left; simp [slugOutChar, hd]

theorem collapseGo_mem {c : Char} : ∀ (l : List Char) (b : Bool),
    c ∈ collapseGo b l → c = '-' ∨ (c ∈ l ∧ dashSpace c = false) := by
  intro l
  induction l with
  | nil => intro b h; simp [collapseGo] at h
  | cons d rest ih =>
    intro b h
    by_cases hd : dashSpace d = true
    · have h' : c ∈ collapseGo true rest ∨ c = '-' := by
        rw [collapseGo, if_pos hd] at h
        cases b with
        | true => simp at h; exact Or.inl h
        | false =>
          simp only [Bool.false_eq_true, if_false, List.mem_cons] at h
          rcases h with rfl | h
          · exact Or.inr rfl
          · exact Or.inl h
      rcases h' with h' | rfl
      · rcases ih true h' with rfl | ⟨hm, hns⟩
        · exact Or.inl rfl
        · exact Or.inr ⟨List.mem_cons_of_mem d hm, hns⟩
      · exact Or.inl rfl
    · rw [collapseGo, if_neg hd] at h
      rcases List.mem_cons.mp h with rfl | h
      · exact Or.inr ⟨List.mem_cons_self _ _, by simpa using hd⟩
      · rcases ih false h with rfl | ⟨hm, hns⟩
        · exact Or.inl rfl
        · exact Or.inr ⟨List.mem_cons_of_mem d hm, hns⟩

theorem noDD_cons_of_ne {c : Char} {l : List Char} (hc : (c == '-') = false)
    (h : noDD l = true) : noDD (c :: l) = true := by
  cases l with
  | nil => rfl
  | cons e t =>
    rw [noDD]
    simp [hc, h]

theorem noDD_cons_dash {l : List Char} (hOk : headOk l = true)
    (h : noDD l = true) : noDD ('-' :: l) = true := by
  cases l with
  | nil => rfl
  | cons e t =>
    rw [noDD]
    have he : (e == '-') = false := by
      rcases hbe : e == '-' with _ | _
      · rfl
      · have : e = '-' := by simpa using hbe
        subst this
        simp [headOk] at hOk
    simp [he, h]

theorem collapseGo_noDD_headOk : ∀ (l : List Char) (b : Bool),
    noDD (collapseGo b l) = true ∧
      (b = true → headOk (collapseGo b l) = true) := by
  intro l
  induction l with
  | nil => intro b; exact ⟨rfl, fun _ => rfl⟩
  | cons d rest ih =>
    intro b
    by_cases hd : dashSpace d = true
    · cases b with
      | true =>
        rw [collapseGo, if_pos hd, if_pos rfl]
        exact (ih true)
      | false =>
        rw [collapseGo, if_pos hd]
        simp only [Bool.false_eq_true, if_false]
        obtain ⟨hn, hh⟩ := ih true
        refine ⟨noDD_cons_dash (hh rfl) hn, ?_⟩
        intro h
        exact absurd h (by simp)
    · rw [collapseGo, if_neg hd]
      obtain ⟨hn, _⟩ := ih false
      have hdne : (d == '-') = false := by
        rcases hbe : d == '-' with _ | _
        · rfl
        · have : d = '-' := by simpa using hbe
          subst this
          simp [dashSpace] at hd
      refine ⟨noDD_cons_of_ne hdne hn, fun _ => ?_⟩
      cases hdd : d with
      | _ =>
        unfold headOk
        split
        · rename_i heq
          rw [← hdd] at heq
          cases heq
          simp at hdne
        · rfl

theorem collapseDS_noDD (l : List Char) : noDD (collapseDS l) = true :=
  (collapseGo_noDD_headOk l false).1

theorem collapseDS_mem {c : Char} {l : List Char} (h : c ∈ collapseDS l) :
    c = '-' ∨ (c ∈ l ∧ dashSpace c = false) :=
  collapseGo_mem l false h

theorem collapseGo_fix : ∀ (l : List Char) (b : Bool),
    (∀ c ∈ l, spaceRe c = false) → noDD l = true →
    (b = true → headOk l = true) → collapseGo b l = l := by
  intro l
  induction l with
  | nil => intro b _ _ _; rfl
  | cons d rest ih =>
    intro b hs hdd hok
    have hddt : noDD rest = true := by
      cases rest with
      | nil => rfl
      | cons e t =>
        rw [noDD] at hdd
        simp only [Bool.and_eq_true] at hdd
        exact hdd.2
    by_cases hd : dashSpace d = true
    · have hd' : d = '-' := by
        have hsp := hs d (by simp)
        simp only [dashSpace, Bool.or_eq_true, beq_iff_eq] at hd
        rcases hd with h | h
        · rw [hsp] at h; exact absurd h (by simp)
        · exact h
      subst hd'
      cases b with
      | true =>
        exfalso
        have := hok rfl
        simp [headOk] at this
      | false =>
        rw [collapseGo, if_pos hd]
        simp only [Bool.false_eq_true, if_false, List.cons.injEq, true_and]
        have hokt : headOk rest = true := by
          cases rest with
          | nil => rfl
          | cons e t =>
            rw [noDD] at hdd
            simp only [Bool.and_eq_true] at hdd
            have he : (e == '-') = false := by simpa using hdd.1
            unfold headOk
            split
            · rename_i heq
              cases heq
              simp at he
            · rfl
        exact ih true (fun c hc => hs c (by simp [hc])) hddt (fun _ => hokt)
    · rw [collapseGo, if_neg hd]
      rw [ih false (fun c hc => hs c (by simp [hc])) hddt (by simp)]

theorem collapseDS_fix {l : List Char} (hs : ∀ c ∈ l, spaceRe c = false)
    (hdd : noDD l = true) : collapseDS l = l :=
  collapseGo_fix l false hs hdd (by simp)

theorem slugOut_wordKeep {c : Char} (h : slugOutChar c = true) :
    wordKeep c = true := by
  simp only [slugOutChar, Bool.or_eq_true, beq_iff_eq] at h
  rcases h with ((h | h) | rfl) | rfl
  · simp [wordKeep, wordChar, h]
  · simp [wordKeep, wordChar, h]
  · simp [wordKeep]
  · simp [wordKeep, wordChar]

theorem slugifyChars_chars {c : Char} {l : List Char}
    (h : c ∈ slugifyChars l) : slugOutChar c = true := by
  unfold slugifyChars at h
  rcases collapseDS_mem h with rfl | ⟨hm, hns⟩
  · decide
  · rcases List.mem_map.mp hm with ⟨d, hd, rfl⟩
    have hd' : d ∈ l.filter wordKeep := mem_of_stripChars hd
    have hk : wordKeep d = true := (List.mem_filter.mp hd').2
    rcases lowerChar_out d hk with h1 | h1
    · exact h1
    · exfalso
      have : dashSpace (lowerChar d) = true := by
        simp [dashSpace, h1]
      rw [this] at hns
      exact absurd hns (by simp)

theorem slugify_chars {nfkd : String → String} {s : String} {c : Char}
    (h : c ∈ (slugify nfkd s).data) : slugOutChar c = true :=
  slugifyChars_chars h

theorem slugOutChar_ascii {c : Char} (h : slugOutChar c = true) :
    c.toNat ≤ 127 := by
  obtain ⟨_, h2, _⟩ := slugOutChar_bounds h
  omega

theorem stripChars_eq_self {l : List Char} (h : ∀ c ∈ l, spaceRe c = false) :
    stripChars l = l := by
  unfold stripChars
  rw [dropWhile_eq_self_all h]
  rw [dropWhile_eq_self_all (fun c hc => h c (List.mem_reverse.mp hc))]
  exact List.reverse_reverse l

theorem slugifyChars_fix {l : List Char} (h : ∀ c ∈ l, slugOutChar c = true)
    (hdd : noDD l = true) : slugifyChars l = l := by
  unfold slugifyChars
  have hnsp : ∀ c ∈ l, spaceRe c = false :=
    fun c hc => slugOutChar_not_space (h c hc)
  rw [List.filter_eq_self.mpr (fun c hc => slugOut_wordKeep (h c hc))]
  rw [stripChars_eq_self hnsp]
  rw [map_eq_self_of_fix (fun c hc => by
    unfold lowerChar
    rw [if_neg]
    simp [slugOutChar_not_upper (h c hc)])]
  exact collapseDS_fix hnsp hdd

theorem slugify_idem (nfkd : String → String) (hn : AsciiId nfkd) (s : String) :
    slugify nfkd (slugify nfkd s) = slugify nfkd s := by
  have hch : ∀ c ∈ (slugify nfkd s).data, slugOutChar c = true :=
    fun c hc => slugify_chars hc
  have hascii : ∀ c ∈ (slugify nfkd s).data, c.toNat ≤ 127 :=
    fun c hc => slugOutChar_ascii (hch c hc)
  conv_lhs => rw [slugify]
  rw [hn _ hascii]
  have hdd : noDD (slugify nfkd s).data = true := collapseDS_noDD _
  rw [slugifyChars_fix hch hdd]

theorem asciiFilter_asciiId : AsciiId asciiFilter := by
  intro s h
  unfold asciiFilter
  rw [List.filter_eq_self.mpr (fun c hc => by simpa using h c hc)]

/-- C8 counterexample input: `slugify('_') == '_'`, and `'_'` is not in the
character class `[a-z0-9-]` asserted by the specification. -/
theorem c8_slugify_counterexample :
    slugify0 "_" = "_" ∧ ¬ (∀ c ∈ (slugify0 "_").data, specSlugChar c = true) := by
  constructor
  · decide
  · intro h
    have h1 : '_' ∈ (slugify0 "_").data := by decide
    have := h '_' h1
    simp [specSlugChar, cLower, cDigit] at this

/-- C8 (amended): `slugify` is total and idempotent — for every string `s`,
`slugify(slugify(s)) == slugify(s)` — and its output contains only characters
from `[a-z0-9_-]` (the underscore, kept by the regex class `\w`, must be added
to the specification's `[a-z0-9-]`).  The theorem is stated for any
NFKD/ASCII-coercion step `nfkd` that is the identity on ASCII strings, which
the `unicodedata` library satisfies. -/
theorem c8_slugify_idempotent_total (nfkd : String → String) (hn : AsciiId nfkd)
    (s : String) :
    slugify nfkd (slugify nfkd s) = slugify nfkd s ∧
      ∀ c ∈ (slugify nfkd s).data, slugOutChar c = true :=
  ⟨slugify_idem nfkd hn s, fun _ hc => slugify_chars hc⟩

/-- Witness for C8: the amended theorem applied at a concrete non-trivial
string with the concrete ASCII-coercion step. -/
theorem c8_witness :
    slugify0 (slugify0 "Hello  World_2!") = slugify0 "Hello  World_2!" ∧
      ∀ c ∈ (slugify0 "Hello  World_2!").data, slugOutChar c = true :=
  c8_slugify_idempotent_total asciiFilter asciiFilter_asciiId "Hello  World_2!"

/-! ## Local file tree model (`filesystem.py`, `FilesystemClient`)

Paths are lists of components relative to the configured root folder (the
client's `_path_for` prepends the root to every path, so the root can be
elided).  The tree is an association list from full file paths to payloads;
directories exist implicitly as proper prefixes of file paths, matching a POSIX
tree in which the loader only ever lists directories that hold files.  A JSON
payload stores the parsed value; the `json.dumps(-, indent=4, sort_keys=True)`
/ `json.loads` round trip of the client is the identity on the parsed mapping
up to key order, modelled by `sortByKey`. -/

/-- Payload of one file: plain text (`save_text`) or a JSON mapping
(`save_json`, which serializes with sorted keys). -/
inductive FileData where
  | txt (s : String)
  | jsn (o : JObj)

/-- Relative path below the configured root folder. -/
abbrev Fpath := List String

/-- The local file tree: file path ↦ payload, first-occurrence order is
directory-listing order. -/
abbrev FS := List (Fpath × FileData)

/-- Updates the file at `p` in place, or appends it (directory creation by
`os.makedirs` is implicit). -/
def FS.write : FS → Fpath → FileData → FS
  | [], p, d => [(p, d)]
  | e :: fs, p, d => if e.1 == p then (p, d) :: fs else e :: FS.write fs p d

/-- Payload of the file at `p`, if present. -/
def FS.read? : FS → Fpath → Option FileData
  | [], _ => none
  | e :: fs, p => if e.1 == p then some e.2 else FS.read? fs p

/-- Model of `FilesystemClient.save_text`. -/
def FS.writeText (fs : FS) (p : Fpath) (s : String) : FS :=
  fs.write p (.txt s)

/-- Model of `FilesystemClient.save_json`: `json.dumps(data, indent=4,
sort_keys=True)` followed by `save_text` — the previous payload of the file is
replaced wholesale. -/
def FS.saveJson (fs : FS) (p : Fpath) (o : JObj) : FS :=
  fs.write p (.jsn (sortByKey o))

/-- Model of `FilesystemClient.read_text`: the empty string when the file is
absent.  The loader only reads text from paths written with `save_text`. -/
def FS.readText (fs : FS) (p : Fpath) : String :=
  match fs.read? p with
  | some (.txt s) => s
  | _ => ""

/-- Model of `FilesystemClient.read_json`: the empty mapping when the file is
absent or empty; `none` models the `json.loads` error on a file that holds
non-JSON text (never exercised on trees written by the `Saver`). -/
def FS.readJson (fs : FS) (p : Fpath) : Option JObj :=
  match fs.read? p with
  | none => some []
  | some (.jsn o) => some o
  | some (.txt t) => if t.data.isEmpty then some [] else none

/-- Strips a directory prefix from a path. -/
def stripPfx : Fpath → Fpath → Option Fpath
  | [], q => some q
  | _, [] => none
  | a :: as, b :: bs => if a == b then stripPfx as bs else none

/-- Model of `FilesystemClient.move` (`shutil.move` guarded by
`os.path.exists(old_path)`): re-homes the file, or every file below the
directory, at `old`; a no-op when nothing exists at `old`. -/
def FS.move (fs : FS) (old new : Fpath) : FS :=
  if fs.any (fun e => (stripPfx old e.1).isSome) then
    fs.map (fun e =>
      match stripPfx old e.1 with
      | some rest => (new ++ rest, e.2)
      | none => e)
  else fs

/-- Model of `FilesystemClient.remove` (`os.remove`): `none` models the
`FileNotFoundError` raised on an absent file. -/
def FS.removeFile : FS → Fpath → Option FS
  | [], _ => none
  | e :: fs, p => if e.1 == p then some fs else (FS.removeFile fs p).map (e :: ·)

/-- First-occurrence deduplication worker. -/
def firstDedupGo (seen : List String) : List String → List String
  | [] => []
  | x :: xs =>
    if seen.contains x then firstDedupGo seen xs
    else x :: firstDedupGo (x :: seen) xs

/-- First-occurrence deduplication; `os.listdir` reports each child once, in
the order the model's underlying file list first mentions it. -/
def firstDedup (l : List String) : List String := firstDedupGo [] l

/-- Python `str.startswith`. -/
def strStartsWith (s pre : String) : Bool := pre.data.isPrefixOf s.data

/-- Python `str.endswith`. -/
def strEndsWith (s suf : String) : Bool := suf.data.isSuffixOf s.data

/-- The subdirectory name a file entry contributes to the listing of `p`: the
next path component when the entry lies strictly below a subdirectory of
`p`. -/
def dirEntryOf (p : Fpath) (e : Fpath × FileData) : Option String :=
  match stripPfx p e.1 with
  | some (d :: _ :: _) => some d
  | _ => none

/-- The file name an entry contributes to the listing of `p`: its basename
when the file sits directly inside `p`. -/
def fileEntryOf (p : Fpath) (e : Fpath × FileData) : Option String :=
  match stripPfx p e.1 with
  | some [f] => some f
  | _ => none

/-- Model of `FilesystemClient.read_directories`: immediate subdirectories of
`p` that hold at least one file, hidden names (leading dot) excluded. -/
def FS.childDirs (fs : FS) (p : Fpath) : List String :=
  firstDedup ((fs.filterMap (dirEntryOf p)).filter
    (fun d => !(strStartsWith d ".")))

/-- Model of `FilesystemClient.read_files`: names of the files directly inside
directory `p`. -/
def FS.childFiles (fs : FS) (p : Fpath) : List String :=
  firstDedup (fs.filterMap (fileEntryOf p))

/-- Splits at the last dot of the non-leading-dot part (Python
`os.path.splitext` on a basename). -/
def splitLastDot : List Char → Option (List Char × List Char)
  | [] => none
  | c :: rest =>
    match splitLastDot rest with
    | some (a, b) => some (c :: a, b)
    | none => if c == '.' then some ([], rest) else none

/-- Character-level core of `os.path.splitext`. -/
def splitExtChars (cs : List Char) : List Char × List Char :=
  let lead := cs.takeWhile (fun c => c == '.')
  match splitLastDot (cs.drop lead.length) with
  | some (a, b) => (lead ++ a, '.' :: b)
  | none => (cs, [])

/-- Model of `os.path.splitext` restricted to basenames. -/
def splitExt (s : String) : String × String :=
  let p := splitExtChars s.data
  (⟨p.1⟩, ⟨p.2⟩)

theorem read?_write_self (fs : FS) (p : Fpath) (d : FileData) :
    (fs.write p d).read? p = some d := by
  induction fs with
  | nil => simp [FS.write, FS.read?]
  | cons e fs ih =>
    by_cases h : e.1 = p
    · simp [FS.write, FS.read?, h]
    · have hb : (e.1 == p) = false := by simpa using h
      simp [FS.write, FS.read?, hb, ih]

theorem read?_write_ne (fs : FS) (p q : Fpath) (d : FileData) (h : q ≠ p) :
    (fs.write p d).read? q = fs.read? q := by
  induction fs with
  | nil =>
    have hb : (p == q) = false := by simpa using (Ne.symm h)
    simp [FS.write, FS.read?, hb]
  | cons e fs ih =>
    by_cases he : e.1 = p
    · have hb : (p == q) = false := by simpa using (Ne.symm h)
      have he1 : (e.1 == p) = true := by simpa using he
      have he2 : (e.1 == q) = false := by
        subst he
        simpa using (Ne.symm h)
      simp [FS.write, FS.read?, he1, he2, hb]
    · have he1 : (e.1 == p) = false := by simpa using he
      by_cases hq : e.1 = q
      · have he2 : (e.1 == q) = true := by simpa using hq
        simp [FS.write, FS.read?, he1, he2]
      · have he2 : (e.1 == q) = false := by simpa using hq
        simp [FS.write, FS.read?, he1, he2, ih]

theorem lookup_eq_none_of_not_mem {m : JObj} {k : String}
    (h : ∀ e ∈ m, e.1 ≠ k) : jGet m k = none := by
  induction m with
  | nil => rfl
  | cons e m ih =>
    have hk : (k == e.1) = false := by
      simpa using (Ne.symm (h e (by simp)))
    simp only [jGet, List.lookup, hk]
    exact ih fun x hx => h x (by simp [hx])

theorem mem_insKey {x e : String × JVal} {m : JObj} :
    e ∈ insKey x m ↔ e = x ∨ e ∈ m := by
  induction m with
  | nil => simp [insKey]
  | cons y m ih =>
    cases h : strKeyLt x.1 y.1 with
    | true =>
      rw [insKey, if_pos h]
      simp [List.mem_cons]
    | false =>
      rw [insKey, if_neg (by simp [h])]
      simp only [List.mem_cons, ih]
      tauto

theorem mem_sortByKey {e : String × JVal} {m : JObj} :
    e ∈ sortByKey m ↔ e ∈ m := by
  induction m with
  | nil => simp [sortByKey]
  | cons x m ih =>
    simp only [sortByKey, List.foldr_cons] at *
    rw [mem_insKey, ih, List.mem_cons]

theorem keys_of_jGet_none {m : JObj} {k : String} (h : jGet m k = none) :
    ∀ e ∈ m, e.1 ≠ k := by
  induction m with
  | nil => intro e he; simp at he
  | cons y m ih =>
    intro e he
    simp only [jGet, List.lookup] at h
    cases hb : k == y.1 with
    | true => rw [hb] at h; simp at h
    | false =>
      rw [hb] at h
      rcases List.mem_cons.mp he with rfl | he'
      · intro hek
        rw [hek] at hb
        simp at hb
      · exact ih h e he'

theorem jGet_sortByKey_none {m : JObj} {k : String} (h : jGet m k = none) :
    jGet (sortByKey m) k = none :=
  lookup_eq_none_of_not_mem fun e he =>
    keys_of_jGet_none h e (mem_sortByKey.mp he)

/-- C10: accessing an entity's remote id or translation ids is total even when
no metadata was ever loaded — the `meta` setter (`value or {}`) coerces `None`
and the empty mapping to the empty mapping, `zendesk_id` (`meta.get('id')`)
yields `None` rather than raising when the key is absent, and `translate_ids`
(`meta.get('webtranslateit_ids', [])`) yields the empty list. -/
theorem c10_meta_accessors_total (v : Option JObj) (m : JObj)
    (hv : v = none ∨ v = some [])
    (hid : jGet m "id" = none)
    (htr : jGet m "webtranslateit_ids" = none) :
    pySetMeta v = [] ∧ zendeskId m = none ∧ translateIds m = .arr [] := by
  refine ⟨?_, ?_, ?_⟩
  · rcases hv with rfl | rfl <;> simp [pySetMeta]
  · exact hid
  · simp [translateIds, htr]

/-- Witness for C10 at `value = None` and a metadata mapping that carries
neither an `id` nor a `webtranslateit_ids` key. -/
theorem c10_witness :
    pySetMeta none = [] ∧ zendeskId [("name", JVal.s "x")] = none ∧
      translateIds [("name", JVal.s "x")] = .arr [] :=
  c10_meta_accessors_total none [("name", JVal.s "x")] (Or.inl rfl) rfl rfl

/-- C5 counterexample: the file at `m.json` holds `{"a": 1, "b": 2}`; writing
the partial mapping `{"a": 3}` through `save_json` leaves `{"a": 3}` on disk —
the key `"b"`, absent from the written mapping, does **not** keep its previous
value (it is gone), because `save_json` serializes its argument wholesale with
no read-merge step. -/
theorem c5_counterexample :
    jGet ((FS.readJson (FS.saveJson [] ["m.json"]
        [("a", JVal.n 1), ("b", JVal.n 2)]) ["m.json"]).getD []) "b" =
      some (JVal.n 2) ∧
    FS.readJson (FS.saveJson (FS.saveJson [] ["m.json"]
        [("a", JVal.n 1), ("b", JVal.n 2)]) ["m.json"] [("a", JVal.n 3)])
        ["m.json"] = some [("a", JVal.n 3)] ∧
    jGet ((FS.readJson (FS.saveJson (FS.saveJson [] ["m.json"]
        [("a", JVal.n 1), ("b", JVal.n 2)]) ["m.json"] [("a", JVal.n 3)])
        ["m.json"]).getD []) "b" = none := by
  refine ⟨rfl, rfl, rfl⟩

/-- C5 (amended): `save_json` replaces the on-disk JSON wholesale — after
writing mapping `o` to `path`, the file holds exactly `o` (keys sorted by the
serializer), and every key absent from `o` is absent from the file, whatever
the previous payload was.  The merge-onto-existing-JSON behaviour asserted by
the specification belongs to an older revision and is not what
`FilesystemClient.save_json` does. -/
theorem c5_save_json_overwrites (fs : FS) (p : Fpath) (o : JObj) (k : String)
    (hk : jGet o k = none) :
    FS.readJson (FS.saveJson fs p o) p = some (sortByKey o) ∧
    jGet ((FS.readJson (FS.saveJson fs p o) p).getD []) k = none := by
  have hr : FS.readJson (FS.saveJson fs p o) p = some (sortByKey o) := by
    unfold FS.readJson FS.saveJson
    rw [read?_write_self]
  exact ⟨hr, by rw [hr]; exact jGet_sortByKey_none hk⟩

/-- Witness for C5's amended theorem at the counterexample input. -/
theorem c5_witness :
    FS.readJson (FS.saveJson [] ["m.json"] [("a", JVal.n 3)]) ["m.json"] =
      some (sortByKey [("a", JVal.n 3)]) ∧
    jGet ((FS.readJson (FS.saveJson [] ["m.json"] [("a", JVal.n 3)])
        ["m.json"]).getD []) "b" = none :=
  c5_save_json_overwrites [] ["m.json"] [("a", JVal.n 3)] "b" rfl

/-! ## Reconciliation engine (`zendesk.py`, `Doctor`)

`Doctor._fix_item` probes the remote record referenced by the locally stored
id and, on a miss, searches for a record with the same display name.  The
search, `Doctor._fetch_item`, fetches the **account-wide** listing
(`'{}.json'.format(key)`, i.e. `categories.json`, `sections.json` or
`articles.json`) and adopts the first record whose `name` equals the item's
name; it never consults the record's parent link. -/

/-- Remote-state oracle for the Doctor: the account-wide listing returned by
`GET {key}.json` (already unwrapped at the collection key), and the outcome of
the per-id existence probe `GET {key}/{id}.json` (`false` models the 404 that
raises `RecordNotFoundError`). -/
structure DoctorRemote where
  items : List JObj
  existsId : String → Bool

/-- Model of `Doctor._fetch_item`'s search: the first record of the
account-wide listing whose `name` field equals the item's display name.  The
Python comparison `zendesk_item['name'] == item.name` indexes `name`
unconditionally; records come from the API and always carry a `name`, which
the theorems assume explicitly. -/
def fetchItemRec (items : List JObj) (name : String) : Option JObj :=
  items.find? (fun rec =>
    match jGet rec "name" with
    | some (.s v) => v == name
    | _ => false)

/-- Model of `Doctor._fix_item` acting on one entity: takes the entity's
in-memory metadata, display name and metadata file path, and returns the
updated metadata and file tree.  `none` models the uncaught `FileNotFoundError`
from `os.remove` when the stale-id branch tries to delete an absent metadata
file. -/
def fixItem (remote : DoctorRemote) (fs : FS) (metaPath : Fpath) (name : String)
    (meta : JObj) : Option (JObj × FS) :=
  if jTruthy (zendeskId meta) = false then
    match fetchItemRec remote.items name with
    | some rec =>
      let m := pySetMeta (some rec)
      some (m, fs.saveJson metaPath m)
    | none => some (meta, fs)
  else if remote.existsId (pyStr (zendeskId meta)) then
    some (meta, fs)
  else
    match fetchItemRec remote.items name with
    | some rec =>
      let m := pySetMeta (some rec)
      some (m, fs.saveJson metaPath m)
    | none => (fs.removeFile metaPath).map (fun fs2 => (meta, fs2))

theorem read?_eq_none_of_not_mem {fs : FS} {p : Fpath}
    (h : ∀ e ∈ fs, e.1 ≠ p) : fs.read? p = none := by
  induction fs with
  | nil => rfl
  | cons e fs ih =>
    have hb : (e.1 == p) = false := by simpa using h e (by simp)
    simp only [FS.read?, hb, if_false]
    exact ih fun x hx => h x (by simp [hx])

theorem removeFile_of_isSome {fs : FS} {p : Fpath}
    (h : (fs.read? p).isSome) : ∃ fs2, fs.removeFile p = some fs2 := by
  induction fs with
  | nil => simp [FS.read?] at h
  | cons e fs ih =>
    cases hb : e.1 == p with
    | true => exact ⟨fs, by simp [FS.removeFile, hb]⟩
    | false =>
      simp only [FS.read?, hb, if_false] at h
      obtain ⟨fs2, hfs2⟩ := ih h
      exact ⟨e :: fs2, by simp [FS.removeFile, hb, hfs2]⟩

theorem removeFile_read?_none {fs : FS} {p : Fpath} {fs2 : FS}
    (hnd : (fs.map Prod.fst).Nodup) (h : fs.removeFile p = some fs2) :
    fs2.read? p = none := by
  induction fs generalizing fs2 with
  | nil => simp [FS.removeFile] at h
  | cons e fs ih =>
    simp only [List.map_cons, List.nodup_cons] at hnd
    cases hb : e.1 == p with
    | true =>
      simp only [FS.removeFile, hb, if_true, Option.some.injEq] at h
      subst h
      have hep : e.1 = p := by simpa using hb
      apply read?_eq_none_of_not_mem
      intro x hx hxp
      exact hnd.1 (by
        rw [← hep] at hxp
        rw [← hxp]
        exact List.mem_map_of_mem Prod.fst hx)
    | false =>
      simp only [FS.removeFile, hb, if_false] at h
      cases hr : FS.removeFile fs p with
      | none => rw [hr] at h; simp at h
      | some fs2' =>
        rw [hr] at h
        simp at h
        subst h
        simp only [FS.read?, hb, if_false]
        exact ih hnd.2 hr

theorem pySetMeta_of_name {rec : JObj} {v : String}
    (h : jGet rec "name" = some (JVal.s v)) : pySetMeta (some rec) = rec := by
  cases rec with
  | nil => simp [jGet, List.lookup] at h
  | cons e m => simp [pySetMeta]

theorem fetchItemRec_name {items : List JObj} {name : String} {rec : JObj}
    (h : fetchItemRec items name = some rec) :
    ∃ v, jGet rec "name" = some (JVal.s v) := by
  have hp := List.find?_some h
  revert hp
  cases hv : jGet rec "name" with
  | none => intro hp; simp [hv] at hp
  | some v =>
    cases v with
    | s w => intro _; exact ⟨w, rfl⟩
    | n x => intro hp; simp [hv] at hp
    | b x => intro hp; simp [hv] at hp
    | null => intro hp; simp [hv] at hp
    | arr x => intro hp; simp [hv] at hp
    | obj x => intro hp; simp [hv] at hp

/-- C3: reconciliation stale-id recovery.  For an entity whose local metadata
carries a (truthy) remote id for which the existence probe reports not-found:
if the account-wide listing contains a record with the entity's display name,
`Doctor._fix_item` sets the in-memory metadata to the first such record and
rewrites the metadata file with it (keys sorted by the JSON serializer); if no
record matches, the local metadata file is deleted — its path no longer
resolves — so the entity becomes new again. -/
theorem c3_doctor_stale_id_recovery (remote : DoctorRemote) (fs : FS)
    (metaPath : Fpath) (name : String) (meta : JObj)
    (hid : jTruthy (zendeskId meta) = true)
    (hex : remote.existsId (pyStr (zendeskId meta)) = false)
    (hnd : (fs.map Prod.fst).Nodup)
    (hfile : (fs.read? metaPath).isSome) :
    (∀ rec, fetchItemRec remote.items name = some rec →
      fixItem remote fs metaPath name meta =
          some (rec, fs.saveJson metaPath rec) ∧
        FS.readJson (fs.saveJson metaPath rec) metaPath =
          some (sortByKey rec)) ∧
    (fetchItemRec remote.items name = none →
      ∃ fs2, fs.removeFile metaPath = some fs2 ∧
        fixItem remote fs metaPath name meta = some (meta, fs2) ∧
        fs2.read? metaPath = none) := by
  constructor
  · intro rec hrec
    obtain ⟨v, hv⟩ := fetchItemRec_name hrec
    have hset : pySetMeta (some rec) = rec := pySetMeta_of_name hv
    constructor
    · unfold fixItem
      rw [hid]
      simp only [Bool.true_eq_false, if_false]
      rw [hex]
      simp only [Bool.false_eq_true, if_false]
      rw [hrec]
      show some (pySetMeta (some rec), fs.saveJson metaPath (pySetMeta (some rec))) = _
      rw [hset]
    · unfold FS.readJson FS.saveJson
      rw [read?_write_self]
  · intro hrec
    obtain ⟨fs2, hfs2⟩ := removeFile_of_isSome hfile
    refine ⟨fs2, hfs2, ?_, removeFile_read?_none hnd hfs2⟩
    unfold fixItem
    rw [hid]
    simp only [Bool.true_eq_false, if_false]
    rw [hex]
    simp only [Bool.false_eq_true, if_false]
    rw [hrec, hfs2]
    rfl

/-- Witness for C3: a concrete stale id (5), a remote listing with a matching
record (id 7), and a metadata file on disk; both branches of the theorem are
exercised through its conclusion at this input. -/
theorem c3_witness :
    (∀ rec, fetchItemRec [[("name", JVal.s "Billing"), ("id", JVal.n 7)]]
        "Billing" = some rec →
      fixItem ⟨[[("name", JVal.s "Billing"), ("id", JVal.n 7)]], fun _ => false⟩
          [(["billing", ".group.meta"], FileData.jsn [("id", JVal.n 5)])]
          ["billing", ".group.meta"] "Billing" [("id", JVal.n 5)] =
          some (rec, FS.saveJson
            [(["billing", ".group.meta"], FileData.jsn [("id", JVal.n 5)])]
            ["billing", ".group.meta"] rec) ∧
        FS.readJson (FS.saveJson
            [(["billing", ".group.meta"], FileData.jsn [("id", JVal.n 5)])]
            ["billing", ".group.meta"] rec) ["billing", ".group.meta"] =
          some (sortByKey rec)) ∧
    (fetchItemRec [[("name", JVal.s "Billing"), ("id", JVal.n 7)]] "Billing" =
        none →
      ∃ fs2, FS.removeFile
          [(["billing", ".group.meta"], FileData.jsn [("id", JVal.n 5)])]
          ["billing", ".group.meta"] = some fs2 ∧
        fixItem ⟨[[("name", JVal.s "Billing"), ("id", JVal.n 7)]], fun _ => false⟩
          [(["billing", ".group.meta"], FileData.jsn [("id", JVal.n 5)])]
          ["billing", ".group.meta"] "Billing" [("id", JVal.n 5)] =
          some ([("id", JVal.n 5)], fs2) ∧
        fs2.read? ["billing", ".group.meta"] = none) :=
  c3_doctor_stale_id_recovery
    ⟨[[("name", JVal.s "Billing"), ("id", JVal.n 7)]], fun _ => false⟩
    [(["billing", ".group.meta"], FileData.jsn [("id", JVal.n 5)])]
    ["billing", ".group.meta"] "Billing" [("id", JVal.n 5)]
    rfl rfl (by simp) rfl

/-- C7 counterexample: a local section whose parent category has remote id 1
(the doctor is never even told the parent), with a stale id 5; the account-wide
`sections.json` listing contains a same-named record that lives under a
**different** category (`category_id` 2).  `Doctor._fix_item` adopts that
record: candidates are not restricted to siblings under the same parent. -/
theorem c7_counterexample :
    fixItem ⟨[[("name", JVal.s "Invoices"), ("id", JVal.n 77),
        ("category_id", JVal.n 2)]], fun _ => false⟩
      [] ["cat1", "invoices", ".group.meta"] "Invoices" [("id", JVal.n 5)] =
      some ([("name", JVal.s "Invoices"), ("id", JVal.n 77),
          ("category_id", JVal.n 2)],
        FS.saveJson [] ["cat1", "invoices", ".group.meta"]
          [("name", JVal.s "Invoices"), ("id", JVal.n 77),
            ("category_id", JVal.n 2)]) ∧
    jGet [("name", JVal.s "Invoices"), ("id", JVal.n 77),
        ("category_id", JVal.n 2)] "category_id" ≠ some (JVal.n 1) := by
  constructor
  · rfl
  · intro h
    simp [jGet, List.lookup] at h

/-- C7 (amended): the doctor's name-match question is account-global, not
sibling-scoped — `Doctor._fetch_item` fetches the flat account-wide listing and
adopts the first record whose display name matches, whatever the record's
parent link says.  The record `rec` below is arbitrary: nothing in the search
constrains its `category_id`/`section_id` to the local entity's parent. -/
theorem c7_name_search_account_global (ex : String → Bool) (fs : FS)
    (metaPath : Fpath) (name : String) (meta rec : JObj)
    (hid : jTruthy (zendeskId meta) = true)
    (hex : ex (pyStr (zendeskId meta)) = false)
    (hname : jGet rec "name" = some (JVal.s name)) :
    fixItem ⟨[rec], ex⟩ fs metaPath name meta =
      some (rec, fs.saveJson metaPath rec) := by
  have hset : pySetMeta (some rec) = rec := pySetMeta_of_name hname
  unfold fixItem
  rw [hid]
  simp only [Bool.true_eq_false, if_false]
  rw [hex]
  simp only [Bool.false_eq_true, if_false]
  have hfind : fetchItemRec [rec] name = some rec := by
    unfold fetchItemRec
    rw [List.find?]
    rw [hname]
    simp
  rw [hfind]
  show some (pySetMeta (some rec), fs.saveJson metaPath (pySetMeta (some rec))) = _
  rw [hset]

/-- Witness for C7's amended theorem: the record found by name lives under
`category_id` 2 while the local entity's section path sits under a different
category; it is adopted nonetheless. -/
theorem c7_witness :
    fixItem ⟨[[("name", JVal.s "S"), ("id", JVal.n 9),
        ("category_id", JVal.n 2)]], fun _ => false⟩
      [] ["c", "s", ".group.meta"] "S" [("id", JVal.n 4)] =
      some ([("name", JVal.s "S"), ("id", JVal.n 9), ("category_id", JVal.n 2)],
        FS.saveJson [] ["c", "s", ".group.meta"]
          [("name", JVal.s "S"), ("id", JVal.n 9),
            ("category_id", JVal.n 2)]) :=
  c7_name_search_account_global (fun _ => false) [] ["c", "s", ".group.meta"]
    "S" [("id", JVal.n 4)]
    [("name", JVal.s "S"), ("id", JVal.n 9), ("category_id", JVal.n 2)]
    rfl rfl rfl

/-! ## Entity model (`model.py`)

Categories, sections and articles with their translation value objects.
Back-references (`Section.category`, `Article.section`) exist in the source
only to derive storage paths and parent ids; here paths are derived by passing
the parent's path/metadata explicitly. -/

/-- The default locale, `model.DEFAULT_LOCALE`. -/
def defaultLocale : String := "en-US"

/-- Per-locale translation of a Category or Section
(`model.GroupTranslation`); the constructor coerces a falsy locale to the
default locale (`locale or DEFAULT_LOCALE`). -/
structure GroupTranslation where
  locale : String
  name : String
  description : String
  deriving DecidableEq

/-- Constructor of `model.GroupTranslation`. -/
def mkGroupTranslation (locale name description : String) : GroupTranslation :=
  ⟨if locale.data.isEmpty then defaultLocale else locale, name, description⟩

/-- Per-locale translation of an Article (`model.ArticleTranslation`); its
constructor stores the locale as given. -/
structure ArticleTranslation where
  locale : String
  name : String
  body : String
  deriving DecidableEq

/-- `model.Article`: leaf content with a Markdown body. -/
structure Article where
  name : String
  body : String
  filename : String
  translations : List ArticleTranslation
  meta : JObj

/-- `model.Section`: a group holding articles, child of a category. -/
structure Section where
  name : String
  description : String
  filename : String
  articles : List Article
  translations : List GroupTranslation
  meta : JObj

/-- `model.Category`: a top-level group holding sections. -/
structure Category where
  name : String
  description : String
  filename : String
  sections : List Section
  translations : List GroupTranslation
  meta : JObj

/-- `Category.path`: the category's folder, `self.filename`, relative to the
root. -/
def Category.path (c : Category) : Fpath := [c.filename]

/-- `Section.path`: `os.path.join(self.category.path, self.filename)`. -/
def sectionPath (catPath : Fpath) (s : Section) : Fpath :=
  catPath ++ [s.filename]

/-- `Article.path_from_section`: `os.path.join(section.path, DEFAULT_LOCALE)`,
the default-locale folder holding the section's article files. -/
def articleDirOf (secPath : Fpath) : Fpath := secPath ++ [defaultLocale]

/-! ## Cascading remove (`zendesk.py` `Remover`, `translate.py` `Remover`,
`main.py` `RemoveTask`)

Each remover is modelled as the list of deletion events it issues, in order;
`RemoveTask.execute` concatenates the three removers' traces: Zendesk first,
then WebTranslateIt, then the local file tree. -/

/-- One observable deletion performed while removing an item. -/
inductive RemoveEvent where
  | zendeskDelete (url : String)
  | translateDelete (fileId : JVal)
  | localRemoveDir (p : Fpath)

/-- `zendesk.Remover.remove` for a Category dispatches (by `isinstance`) to
`_remove_category`, which issues the single call
`DELETE categories/{zendesk_id}.json` — it does **not** recurse into sections
or articles. -/
def zendeskRemoveCategory (c : Category) : List RemoveEvent :=
  [.zendeskDelete ("categories/" ++ pyStr (zendeskId c.meta) ++ ".json")]

/-- `translate.Remover._remove_item`: one WebTranslateIt file deletion per
stored translation id. -/
def translateRemoveItem (meta : JObj) : List RemoveEvent :=
  (translateIdList meta).map .translateDelete

/-- `translate.Remover._remove_section`: the section's own translation files,
then each of its articles'. -/
def translateRemoveSection (s : Section) : List RemoveEvent :=
  translateRemoveItem s.meta ++
    s.articles.flatMap (fun a => translateRemoveItem a.meta)

/-- `translate.Remover._remove_category`: the category's own translation
files, then each section's (which recurses into its articles). -/
def translateRemoveCategory (c : Category) : List RemoveEvent :=
  translateRemoveItem c.meta ++ c.sections.flatMap translateRemoveSection

/-- `filesystem.Remover.remove` for a Category: `remove_dir(category.path)`. -/
def fsRemoveCategory (c : Category) : List RemoveEvent :=
  [.localRemoveDir c.path]

/-- `RemoveTask.execute` on a loaded Category: Zendesk deletions, then
WebTranslateIt deletions, then local tree deletion, in that order. -/
def removeCategoryTask (c : Category) : List RemoveEvent :=
  zendeskRemoveCategory c ++ translateRemoveCategory c ++ fsRemoveCategory c

/-- Remote record deletion aimed at a group (category or section) endpoint. -/
def isRemoteGroupDelete : RemoveEvent → Bool
  | .zendeskDelete url =>
    strStartsWith url "categories/" || strStartsWith url "sections/"
  | _ => false

/-- Remote record deletion aimed at the article endpoint. -/
def isRemoteArticleDelete : RemoveEvent → Bool
  | .zendeskDelete url => strStartsWith url "articles/"
  | _ => false

/-- Any remote Zendesk record deletion. -/
def isZendeskDelete : RemoveEvent → Bool
  | .zendeskDelete _ => true
  | _ => false

/-- Local file-tree deletion. -/
def isLocalDelete : RemoveEvent → Bool
  | .localRemoveDir _ => true
  | _ => false

/-- C4 counterexample: a category holding N = 1 section with M = 1 article
(all three entities carrying remote ids and translation ids).  The claim
demands N+1 = 2 remote group-deletes and M = 1 remote article-delete; the
remove task issues exactly one remote delete — the category's — and no article
delete (`zendesk.Remover.remove` does not cascade; the server side does). -/
theorem c4_counterexample :
    (removeCategoryTask
        ⟨"Billing", "d", "billing",
          [⟨"Invoices", "d", "invoices",
            [⟨"How to pay", "b", "how-to-pay", [],
              [("id", JVal.n 30), ("webtranslateit_ids",
                JVal.arr [JVal.s "f5", JVal.s "f6"])]⟩],
            [], [("id", JVal.n 20), ("webtranslateit_ids",
              JVal.arr [JVal.s "f3"])]⟩],
          [], [("id", JVal.n 10), ("webtranslateit_ids",
            JVal.arr [JVal.s "f1"])]⟩).countP isRemoteGroupDelete = 1 ∧
    ¬ ((removeCategoryTask
        ⟨"Billing", "d", "billing",
          [⟨"Invoices", "d", "invoices",
            [⟨"How to pay", "b", "how-to-pay", [],
              [("id", JVal.n 30), ("webtranslateit_ids",
                JVal.arr [JVal.s "f5", JVal.s "f6"])]⟩],
            [], [("id", JVal.n 20), ("webtranslateit_ids",
              JVal.arr [JVal.s "f3"])]⟩],
          [], [("id", JVal.n 10), ("webtranslateit_ids",
            JVal.arr [JVal.s "f1"])]⟩).countP isRemoteGroupDelete = 1 + 1) ∧
    (removeCategoryTask
        ⟨"Billing", "d", "billing",
          [⟨"Invoices", "d", "invoices",
            [⟨"How to pay", "b", "how-to-pay", [],
              [("id", JVal.n 30), ("webtranslateit_ids",
                JVal.arr [JVal.s "f5", JVal.s "f6"])]⟩],
            [], [("id", JVal.n 20), ("webtranslateit_ids",
              JVal.arr [JVal.s "f3"])]⟩],
          [], [("id", JVal.n 10), ("webtranslateit_ids",
            JVal.arr [JVal.s "f1"])]⟩).countP isRemoteArticleDelete = 0 := by
  refine ⟨by decide, by decide, by decide⟩

/-- C4 (amended): removing a Category issues exactly **one** remote record
delete — `DELETE categories/{id}.json` for the category itself (server-side
cascade is relied on for its sections and articles), and zero
section/article-endpoint deletes.  The WebTranslateIt remover frees the
translation-file ids of all N+M+1 entities — the trace is exactly the
category's ids, then per section its ids followed by its articles' ids.  All
remote and translation-store deletions precede the single local deletion,
which removes the category directory and is the last event. -/
theorem c4_remove_category_trace (c : Category) :
    (removeCategoryTask c).countP isZendeskDelete = 1 ∧
    (removeCategoryTask c).countP isRemoteGroupDelete = 1 ∧
    (removeCategoryTask c).countP isRemoteArticleDelete = 0 ∧
    translateRemoveCategory c =
      ((translateIdList c.meta ++
          c.sections.flatMap (fun s => translateIdList s.meta ++
            s.articles.flatMap (fun a => translateIdList a.meta))).map
        RemoveEvent.translateDelete) ∧
    (removeCategoryTask c).dropLast.all (fun e => !(isLocalDelete e)) = true ∧
    (removeCategoryTask c).getLast? = some (.localRemoveDir [c.filename]) := by
  have htr : ∀ m : JObj, ∀ e ∈ translateRemoveItem m, isZendeskDelete e = false
      ∧ isRemoteGroupDelete e = false ∧ isRemoteArticleDelete e = false
      ∧ isLocalDelete e = false := by
    intro m e he
    rcases List.mem_map.mp he with ⟨v, _, rfl⟩
    exact ⟨rfl, rfl, rfl, rfl⟩
  have hcat : ∀ e ∈ translateRemoveCategory c, isZendeskDelete e = false
      ∧ isRemoteGroupDelete e = false ∧ isRemoteArticleDelete e = false
      ∧ isLocalDelete e = false := by
    intro e he
    unfold translateRemoveCategory at he
    rcases List.mem_append.mp he with h | h
    · exact htr _ e h
    · rcases List.mem_flatMap.mp h with ⟨s, _, hs⟩
      unfold translateRemoveSection at hs
      rcases List.mem_append.mp hs with h2 | h2
      · exact htr _ e h2
      · rcases List.mem_flatMap.mp h2 with ⟨a, _, ha⟩
        exact htr _ e ha
  have hz : strStartsWith ("categories/" ++ pyStr (zendeskId c.meta) ++ ".json")
      "categories/" = true := by
    unfold strStartsWith
    rw [List.isPrefixOf_iff_prefix]
    rw [String.data_append, String.data_append]
    exact ⟨(pyStr (zendeskId c.meta)).data ++ ".json".data, by simp⟩
  have hza : strStartsWith ("categories/" ++ pyStr (zendeskId c.meta) ++ ".json")
      "articles/" = false := by
    unfold strStartsWith
    rw [Bool.eq_false_iff]
    intro hpre
    rw [List.isPrefixOf_iff_prefix] at hpre
    rw [String.data_append, String.data_append] at hpre
    obtain ⟨t, ht⟩ := hpre
    have ha : "articles/".data = 'a' :: "rticles/".data := rfl
    have hc : "categories/".data = 'c' :: "ategories/".data := rfl
    rw [ha, hc, List.cons_append, List.cons_append] at ht
    injection ht with h1 _
    exact absurd h1 (by decide)
  refine ⟨?_, ?_, ?_, ?_, ?_, ?_⟩
  · unfold removeCategoryTask zendeskRemoveCategory fsRemoveCategory
    rw [List.countP_append, List.countP_append]
    have h2 : (translateRemoveCategory c).countP isZendeskDelete = 0 :=
      List.countP_eq_zero.mpr (fun e he => by simp [(hcat e he).1])
    simp [List.countP_cons, h2, isZendeskDelete, isLocalDelete]
  · unfold removeCategoryTask zendeskRemoveCategory fsRemoveCategory
    rw [List.countP_append, List.countP_append]
    have h2 : (translateRemoveCategory c).countP isRemoteGroupDelete = 0 :=
      List.countP_eq_zero.mpr (fun e he => by simp [(hcat e he).2.1])
    simp [List.countP_cons, h2, isRemoteGroupDelete, hz, isLocalDelete]
  · unfold removeCategoryTask zendeskRemoveCategory fsRemoveCategory
    rw [List.countP_append, List.countP_append]
    have h2 : (translateRemoveCategory c).countP isRemoteArticleDelete = 0 :=
      List.countP_eq_zero.mpr (fun e he => by simp [(hcat e he).2.2.1])
    simp [List.countP_cons, h2, isRemoteArticleDelete, hza, isLocalDelete]
  · have hfun : translateRemoveSection = fun s =>
        List.map RemoveEvent.translateDelete (translateIdList s.meta ++
          s.articles.flatMap fun a => translateIdList a.meta) := by
      funext s
      unfold translateRemoveSection translateRemoveItem
      rw [List.map_append, List.map_flatMap]
    unfold translateRemoveCategory
    rw [List.map_append, List.map_flatMap, hfun]
    rfl
  · unfold removeCategoryTask zendeskRemoveCategory fsRemoveCategory
    rw [show [RemoveEvent.zendeskDelete ("categories/" ++
        pyStr (zendeskId c.meta) ++ ".json")] ++ translateRemoveCategory c ++
        [RemoveEvent.localRemoveDir c.path] =
      (RemoveEvent.zendeskDelete ("categories/" ++
        pyStr (zendeskId c.meta) ++ ".json") :: translateRemoveCategory c) ++
        [RemoveEvent.localRemoveDir c.path] by simp]
    rw [List.dropLast_concat]
    rw [List.all_eq_true]
    intro e he
    rcases List.mem_cons.mp he with rfl | h
    · rfl
    · simp [(hcat e h).2.2.2]
  · unfold removeCategoryTask zendeskRemoveCategory fsRemoveCategory
    rw [show [RemoveEvent.zendeskDelete ("categories/" ++
        pyStr (zendeskId c.meta) ++ ".json")] ++ translateRemoveCategory c ++
        [RemoveEvent.localRemoveDir c.path] =
      (RemoveEvent.zendeskDelete ("categories/" ++
        pyStr (zendeskId c.meta) ++ ".json") :: translateRemoveCategory c) ++
        [RemoveEvent.localRemoveDir c.path] by simp]
    rw [List.getLast?_append]
    rfl

/-! ## Storage path derivation (`model.py` file-path properties)

These helpers mirror `meta_filepath`, `content_filepath` and
`body_filepath` for groups and articles. -/

/-- Group `meta_filepath`: `<path>/.group.meta`. -/
def groupMetaPath (p : Fpath) : Fpath := p ++ [".group.meta"]

/-- Group `content_filepath`: `<path>/__group__.json`. -/
def groupContentPath (p : Fpath) : Fpath := p ++ ["__group__.json"]

/-- Article `meta_filepath`: `<section>/en-US/.article_<slug>.meta`. -/
def articleMetaPath (secPath : Fpath) (f : String) : Fpath :=
  articleDirOf secPath ++ [".article_" ++ f ++ ".meta"]

/-- Article `content_filepath`: `<section>/en-US/<slug>.json`. -/
def articleContentPath (secPath : Fpath) (f : String) : Fpath :=
  articleDirOf secPath ++ [f ++ ".json"]

/-- Article `body_filepath`: `<section>/en-US/<slug>.mkdown`. -/
def articleBodyPath (secPath : Fpath) (f : String) : Fpath :=
  articleDirOf secPath ++ [f ++ ".mkdown"]

/-! ## Export push (`zendesk.py`, `Pusher`)

The Pusher walks categories, then each category's sections, then each
section's articles.  Per item: a POST creates the record when the local
metadata has no (truthy) id; then per translation, a missing locale gets a
POST, otherwise the remote translation is fetched and an update PUT is issued
only when some MD5 field hash differs.  The remote state is an oracle; the
model counts record creates, translation creates (POST) and translation
updates (PUT).  The external `markdown.markdown` renderer, the image-CDN
rewrite and MD5 are parameters. -/

/-- `utils.to_zendesk_locale`: lowercases the locale. -/
def toZendeskLocale (l : String) : String := strLower l

/-- Remote-state oracle for the Pusher: the missing-locale list
(`GET {endpoint}/{id}/translations/missing.json`), the per-locale translation
record (`GET {endpoint}/{id}/translations/{locale}.json`, unwrapped at
`'translation'`, fields as strings), and the record returned by a creating
POST (keyed by the target URL, unwrapped at the item key). -/
structure PushRemote where
  missing : String → String → List String
  translation : String → String → String → List (String × String)
  created : String → JObj

/-- Remote calls counted during a push: record-creating POSTs, translation
POSTs, translation PUTs. -/
structure PushCounts where
  recordCreates : Nat
  translationCreates : Nat
  translationUpdates : Nat
  deriving DecidableEq

instance : Add PushCounts :=
  ⟨fun a b => ⟨a.recordCreates + b.recordCreates,
    a.translationCreates + b.translationCreates,
    a.translationUpdates + b.translationUpdates⟩⟩

/-- `GroupTranslation.to_dict`. -/
def groupTransToDict (t : GroupTranslation) : List (String × String) :=
  [("title", t.name), ("body", t.description),
    ("locale", toZendeskLocale t.locale)]

/-- Body of an article rendering when a CDN path is configured:
`markdown.markdown(convert_to_cdn_path(image_cdn, body))`. -/
def articleRendered (cdn : String) (cdnConv : String → String → String)
    (md : String → String) (t : ArticleTranslation) : List (String × String) :=
  [("title", t.name), ("body", md (cdnConv cdn t.body)),
    ("locale", toZendeskLocale t.locale)]

/-- `ArticleTranslation.to_dict`: when `image_cdn` is falsy the local variable
`body` is referenced before assignment (`UnboundLocalError`), modelled as
`none`. -/
def articleTransToDict (cdn : String) (cdnConv : String → String → String)
    (md : String → String) (t : ArticleTranslation) :
    Option (List (String × String)) :=
  if cdn.data.isEmpty then none else some (articleRendered cdn cdnConv md t)

/-- `Group.to_dict`, the payload for a new category/section. -/
def groupToDict (name desc : String) : List (String × String) :=
  [("name", name), ("description", desc),
    ("locale", toZendeskLocale defaultLocale)]

/-- `Article.to_dict`: same `UnboundLocalError` on a falsy `image_cdn`. -/
def articleToDict (cdn : String) (cdnConv : String → String → String)
    (md : String → String) (a : Article) : Option (List (String × String)) :=
  if cdn.data.isEmpty then none
  else some [("title", a.name), ("body", md (cdnConv cdn a.body)),
    ("locale", toZendeskLocale defaultLocale)]

/-- Model of `Pusher._has_content_changed`: fetches the remote translation and
compares, for every key of the local rendering, the MD5 of the remote field
(`content.get(key) or ''`) against the MD5 of the local field. -/
def hasContentChanged (md5 : String → String) (remote : PushRemote)
    (endpoint idS locale : String)
    (itemContent : List (String × String)) : Bool :=
  let content := remote.translation endpoint idS locale
  itemContent.any fun kv =>
    md5 ((List.lookup kv.1 content).getD "") != md5 kv.2

/-- Calls issued for one translation by `Pusher._push_item_translations`: a
POST when the locale is in the missing list, else a PUT exactly when
`_has_content_changed` holds. -/
def pushOneTranslation (md5 : String → String) (remote : PushRemote)
    (endpoint idS locale : String)
    (rendered : List (String × String)) : PushCounts :=
  if (remote.missing endpoint idS).contains locale then ⟨0, 1, 0⟩
  else if hasContentChanged md5 remote endpoint idS locale rendered then
    ⟨0, 0, 1⟩
  else ⟨0, 0, 0⟩

/-- The loop of `Pusher._push_item_translations` over an item's translations;
each entry carries the Zendesk locale and the rendering of
`translation.to_dict(image_cdn)` (`none` models the rendering crash, which
occurs before the missing-locale branch). -/
def pushTranslationsList (md5 : String → String) (remote : PushRemote)
    (endpoint idS : String) :
    List (String × Option (List (String × String))) → Option PushCounts
  | [] => some ⟨0, 0, 0⟩
  | (loc, r?) :: rest => do
    let r ← r?
    let cs ← pushTranslationsList md5 remote endpoint idS rest
    some (pushOneTranslation md5 remote endpoint idS loc r + cs)

/-- Model of `Pusher._push` for one item: when the local metadata has no
truthy id, POST the item payload, adopt the returned record as metadata and
persist it to the metadata file; then push all translations under the
(possibly new) id. -/
def pushItem (md5 : String → String) (remote : PushRemote) (fs : FS)
    (endpoint : String) (metaPath : Fpath) (newUrl : String)
    (selfDict : Option (List (String × String))) (meta0 : JObj)
    (trans : List (String × Option (List (String × String)))) :
    Option (FS × JObj × PushCounts) := do
  let st ←
    if jTruthy (zendeskId meta0) = false then do
      let _ ← selfDict
      let mr := remote.created newUrl
      some (fs.saveJson metaPath mr, pySetMeta (some mr),
        (⟨1, 0, 0⟩ : PushCounts))
    else some (fs, meta0, (⟨0, 0, 0⟩ : PushCounts))
  let idS := pyStr (zendeskId st.2.1)
  let cs ← pushTranslationsList md5 remote endpoint idS trans
  some (st.1, st.2.1, st.2.2 + cs)

/-- `Pusher._push_category`. -/
def pushCategoryItem (md5 : String → String) (remote : PushRemote) (fs : FS)
    (c : Category) : Option (FS × JObj × PushCounts) :=
  pushItem md5 remote fs "categories" (groupMetaPath [c.filename])
    "categories.json" (some (groupToDict c.name c.description)) c.meta
    (c.translations.map fun t =>
      (toZendeskLocale t.locale, some (groupTransToDict t)))

/-- `Pusher._push_section`; `new_item_url` embeds the parent category's
current id. -/
def pushSectionItem (md5 : String → String) (remote : PushRemote) (fs : FS)
    (catPath : Fpath) (catMeta : JObj) (s : Section) :
    Option (FS × JObj × PushCounts) :=
  pushItem md5 remote fs "sections" (groupMetaPath (catPath ++ [s.filename]))
    ("categories/" ++ pyStr (zendeskId catMeta) ++ "/sections.json")
    (some (groupToDict s.name s.description)) s.meta
    (s.translations.map fun t =>
      (toZendeskLocale t.locale, some (groupTransToDict t)))

/-- `Pusher._push_article`; `new_item_url` embeds the parent section's current
id. -/
def pushArticleItem (md5 : String → String) (remote : PushRemote)
    (cdn : String) (cdnConv : String → String → String) (md : String → String)
    (fs : FS) (secPath : Fpath) (secMeta : JObj) (a : Article) :
    Option (FS × JObj × PushCounts) :=
  pushItem md5 remote fs "articles" (articleMetaPath secPath a.filename)
    ("sections/" ++ pyStr (zendeskId secMeta) ++ "/articles.json")
    (articleToDict cdn cdnConv md a) a.meta
    (a.translations.map fun t =>
      (toZendeskLocale t.locale, articleTransToDict cdn cdnConv md t))

/-- The article loop of `Pusher.push`. -/
def pushArticles (md5 : String → String) (remote : PushRemote) (cdn : String)
    (cdnConv : String → String → String) (md : String → String)
    (secPath : Fpath) (secMeta : JObj) :
    FS → List Article → Option (FS × PushCounts)
  | fs, [] => some (fs, ⟨0, 0, 0⟩)
  | fs, a :: rest => do
    let r1 ← pushArticleItem md5 remote cdn cdnConv md fs secPath secMeta a
    let r2 ← pushArticles md5 remote cdn cdnConv md secPath secMeta r1.1 rest
    some (r2.1, r1.2.2 + r2.2)

/-- The section loop of `Pusher.push`: section first, then its articles. -/
def pushSections (md5 : String → String) (remote : PushRemote) (cdn : String)
    (cdnConv : String → String → String) (md : String → String)
    (catPath : Fpath) (catMeta : JObj) :
    FS → List Section → Option (FS × PushCounts)
  | fs, [] => some (fs, ⟨0, 0, 0⟩)
  | fs, s :: rest => do
    let r1 ← pushSectionItem md5 remote fs catPath catMeta s
    let r2 ← pushArticles md5 remote cdn cdnConv md (catPath ++ [s.filename])
      r1.2.1 r1.1 s.articles
    let r3 ← pushSections md5 remote cdn cdnConv md catPath catMeta r2.1 rest
    some (r3.1, r1.2.2 + r2.2 + r3.2)

/-- `Pusher.push`: category first, then its sections (each with its
articles). -/
def pushCategories (md5 : String → String) (remote : PushRemote) (cdn : String)
    (cdnConv : String → String → String) (md : String → String) :
    FS → List Category → Option (FS × PushCounts)
  | fs, [] => some (fs, ⟨0, 0, 0⟩)
  | fs, c :: rest => do
    let r1 ← pushCategoryItem md5 remote fs c
    let r2 ← pushSections md5 remote cdn cdnConv md [c.filename] r1.2.1 r1.1
      c.sections
    let r3 ← pushCategories md5 remote cdn cdnConv md r2.1 rest
    some (r3.1, r1.2.2 + r2.2 + r3.2)

/-- The remote translation for this endpoint/id/locale already equals the
local rendering field-for-field, and the locale is not reported missing. -/
def RemoteHasEqual (remote : PushRemote) (endpoint idS locale : String)
    (rendered : List (String × String)) : Prop :=
  (remote.missing endpoint idS).contains locale = false ∧
  ∀ kv ∈ rendered,
    ((List.lookup kv.1 (remote.translation endpoint idS locale)).getD "")
      = kv.2

/-- A group item (category or section) whose remote state already matches:
truthy id, every translation's locale present remotely with equal fields. -/
def GroupItemClean (remote : PushRemote) (endpoint : String) (meta : JObj)
    (trans : List GroupTranslation) : Prop :=
  jTruthy (zendeskId meta) = true ∧
  ∀ t ∈ trans, RemoteHasEqual remote endpoint (pyStr (zendeskId meta))
    (toZendeskLocale t.locale) (groupTransToDict t)

/-- An article whose remote state already matches. -/
def ArticleClean (remote : PushRemote) (cdn : String)
    (cdnConv : String → String → String) (md : String → String)
    (a : Article) : Prop :=
  jTruthy (zendeskId a.meta) = true ∧
  ∀ t ∈ a.translations, RemoteHasEqual remote "articles"
    (pyStr (zendeskId a.meta)) (toZendeskLocale t.locale)
    (articleRendered cdn cdnConv md t)

/-- A section subtree whose remote state already matches. -/
def SectionClean (remote : PushRemote) (cdn : String)
    (cdnConv : String → String → String) (md : String → String)
    (s : Section) : Prop :=
  GroupItemClean remote "sections" s.meta s.translations ∧
  ∀ a ∈ s.articles, ArticleClean remote cdn cdnConv md a

/-- A category subtree whose remote state already matches. -/
def CategoryClean (remote : PushRemote) (cdn : String)
    (cdnConv : String → String → String) (md : String → String)
    (c : Category) : Prop :=
  GroupItemClean remote "categories" c.meta c.translations ∧
  ∀ s ∈ c.sections, SectionClean remote cdn cdnConv md s

theorem pushOneTranslation_clean {md5 : String → String} {remote : PushRemote}
    {endpoint idS locale : String} {rendered : List (String × String)}
    (h : RemoteHasEqual remote endpoint idS locale rendered) :
    pushOneTranslation md5 remote endpoint idS locale rendered = ⟨0, 0, 0⟩ := by
  obtain ⟨h1, h2⟩ := h
  unfold pushOneTranslation
  rw [h1]
  simp only [Bool.false_eq_true, if_false]
  have hch : hasContentChanged md5 remote endpoint idS locale rendered
      = false := by
    unfold hasContentChanged
    rw [List.any_eq_false]
    intro kv hkv
    rw [h2 kv hkv]
    simp
  rw [hch]
  simp

theorem pushTranslationsList_zero {md5 : String → String}
    {remote : PushRemote} {endpoint idS : String}
    {l : List (String × Option (List (String × String)))}
    (h : ∀ p ∈ l, ∃ r, p.2 = some r ∧
      pushOneTranslation md5 remote endpoint idS p.1 r = ⟨0, 0, 0⟩) :
    pushTranslationsList md5 remote endpoint idS l = some ⟨0, 0, 0⟩ := by
  induction l with
  | nil => rfl
  | cons p rest ih =>
    obtain ⟨r, hr, hz⟩ := h p (by simp)
    have ih2 := ih fun q hq => h q (by simp [hq])
    cases p with
    | mk loc r? =>
      simp only at hr
      subst hr
      unfold pushTranslationsList
      rw [ih2]
      simp only [Option.bind_eq_bind, Option.some_bind]
      rw [hz]
      rfl

theorem pushItem_clean {md5 : String → String} {remote : PushRemote} {fs : FS}
    {endpoint : String} {metaPath : Fpath} {newUrl : String}
    {selfDict : Option (List (String × String))} {meta0 : JObj}
    {trans : List (String × Option (List (String × String)))}
    (hid : jTruthy (zendeskId meta0) = true)
    (h : ∀ p ∈ trans, ∃ r, p.2 = some r ∧
      pushOneTranslation md5 remote endpoint (pyStr (zendeskId meta0)) p.1 r
        = ⟨0, 0, 0⟩) :
    pushItem md5 remote fs endpoint metaPath newUrl selfDict meta0 trans =
      some (fs, meta0, ⟨0, 0, 0⟩) := by
  unfold pushItem
  rw [if_neg (by simp [hid])]
  simp only [Option.bind_eq_bind, Option.some_bind]
  rw [pushTranslationsList_zero h]
  rfl

theorem pushArticles_clean {md5 : String → String} {remote : PushRemote}
    {cdn : String} {cdnConv : String → String → String} {md : String → String}
    {secPath : Fpath} {secMeta : JObj} {fs : FS} {arts : List Article}
    (hcdn : cdn.data.isEmpty = false)
    (h : ∀ a ∈ arts, ArticleClean remote cdn cdnConv md a) :
    pushArticles md5 remote cdn cdnConv md secPath secMeta fs arts =
      some (fs, ⟨0, 0, 0⟩) := by
  induction arts generalizing fs with
  | nil => rfl
  | cons a rest ih =>
    obtain ⟨hid, htr⟩ := h a (by simp)
    have hone : pushArticleItem md5 remote cdn cdnConv md fs secPath secMeta a
        = some (fs, a.meta, ⟨0, 0, 0⟩) := by
      unfold pushArticleItem
      apply pushItem_clean hid
      intro p hp
      rcases List.mem_map.mp hp with ⟨t, ht, rfl⟩
      refine ⟨articleRendered cdn cdnConv md t, ?_, ?_⟩
      · simp only [articleTransToDict, hcdn]
        rw [if_neg (by simp [hcdn])]
      · exact pushOneTranslation_clean (htr t ht)
    unfold pushArticles
    rw [hone]
    simp only [Option.bind_eq_bind, Option.some_bind]
    rw [ih fun x hx => h x (by simp [hx])]
    rfl

theorem pushSections_clean {md5 : String → String} {remote : PushRemote}
    {cdn : String} {cdnConv : String → String → String} {md : String → String}
    {catPath : Fpath} {catMeta : JObj} {fs : FS} {secs : List Section}
    (hcdn : cdn.data.isEmpty = false)
    (h : ∀ s ∈ secs, SectionClean remote cdn cdnConv md s) :
    pushSections md5 remote cdn cdnConv md catPath catMeta fs secs =
      some (fs, ⟨0, 0, 0⟩) := by
  induction secs generalizing fs with
  | nil => rfl
  | cons s rest ih =>
    obtain ⟨⟨hid, htr⟩, harts⟩ := h s (by simp)
    have hone : pushSectionItem md5 remote fs catPath catMeta s
        = some (fs, s.meta, ⟨0, 0, 0⟩) := by
      unfold pushSectionItem
      apply pushItem_clean hid
      intro p hp
      rcases List.mem_map.mp hp with ⟨t, ht, rfl⟩
      exact ⟨groupTransToDict t, rfl, pushOneTranslation_clean (htr t ht)⟩
    unfold pushSections
    rw [hone]
    simp only [Option.bind_eq_bind, Option.some_bind]
    rw [pushArticles_clean hcdn harts]
    simp only [Option.some_bind]
    rw [ih fun x hx => h x (by simp [hx])]
    rfl

theorem pushCategories_clean {md5 : String → String} {remote : PushRemote}
    {cdn : String} {cdnConv : String → String → String} {md : String → String}
    {fs : FS} {cats : List Category}
    (hcdn : cdn.data.isEmpty = false)
    (h : ∀ c ∈ cats, CategoryClean remote cdn cdnConv md c) :
    pushCategories md5 remote cdn cdnConv md fs cats = some (fs, ⟨0, 0, 0⟩) := by
  induction cats generalizing fs with
  | nil => rfl
  | cons c rest ih =>
    obtain ⟨⟨hid, htr⟩, hsecs⟩ := h c (by simp)
    have hone : pushCategoryItem md5 remote fs c = some (fs, c.meta, ⟨0, 0, 0⟩)
        := by
      unfold pushCategoryItem
      apply pushItem_clean hid
      intro p hp
      rcases List.mem_map.mp hp with ⟨t, ht, rfl⟩
      exact ⟨groupTransToDict t, rfl, pushOneTranslation_clean (htr t ht)⟩
    unfold pushCategories
    rw [hone]
    simp only [Option.bind_eq_bind, Option.some_bind]
    rw [pushSections_clean hcdn hsecs]
    simp only [Option.some_bind]
    rw [ih fun x hx => h x (by simp [hx])]
    rfl

/-- C1: export idempotence.  Against a local tree in which every entity
carries a truthy remote id and a remote whose per-locale translations already
equal the local renderings field-for-field (with no locale reported missing),
a push issues zero record-create calls and zero translation-update PUTs (and
zero translation-create POSTs), leaving the file tree untouched.  Moreover,
for every locale not in the remote missing-locale set, an update PUT is issued
only when the MD5 hash of some field of the local rendering differs from the
hash of the corresponding remote field. -/
theorem c1_export_idempotence (md5 : String → String) (remote : PushRemote)
    (cdn : String) (cdnConv : String → String → String) (md : String → String)
    (fs : FS) (cats : List Category)
    (hcdn : cdn.data.isEmpty = false)
    (hclean : ∀ c ∈ cats, CategoryClean remote cdn cdnConv md c) :
    pushCategories md5 remote cdn cdnConv md fs cats = some (fs, ⟨0, 0, 0⟩) ∧
    (∀ endpoint idS locale rendered,
      (remote.missing endpoint idS).contains locale = false →
      (pushOneTranslation md5 remote endpoint idS locale
          rendered).translationUpdates = 1 →
      ∃ kv ∈ rendered,
        md5 ((List.lookup kv.1
          (remote.translation endpoint idS locale)).getD "") ≠ md5 kv.2) := by
  refine ⟨pushCategories_clean hcdn hclean, ?_⟩
  intro endpoint idS locale rendered hmiss hupd
  unfold pushOneTranslation at hupd
  rw [hmiss] at hupd
  simp only [Bool.false_eq_true, if_false] at hupd
  cases hch : hasContentChanged md5 remote endpoint idS locale rendered with
  | false => rw [hch] at hupd; simp at hupd
  | true =>
    unfold hasContentChanged at hch
    rcases List.any_eq_true.mp hch with ⟨kv, hkv, hbne⟩
    exact ⟨kv, hkv, bne_iff_ne.mp hbne⟩

/-- Witness for C1: a concrete one-category/one-section/one-article tree whose
entities all have remote ids, against a remote with no missing locales whose
stored translation fields equal every local rendering. -/
theorem c1_witness :
    pushCategories (fun s => s)
      ⟨fun _ _ => [], fun _ _ _ => [("title", "T"), ("body", "B"),
        ("locale", "en-us")], fun _ => []⟩
      "x" (fun _ b => b) (fun s => s) []
      [⟨"T", "B", "c",
        [⟨"T", "B", "s",
          [⟨"T", "B", "a", [⟨"en-US", "T", "B"⟩], [("id", JVal.n 30)]⟩],
          [⟨"en-US", "T", "B"⟩], [("id", JVal.n 20)]⟩],
        [⟨"en-US", "T", "B"⟩], [("id", JVal.n 10)]⟩] = some ([], ⟨0, 0, 0⟩) :=
  (c1_export_idempotence (fun s => s)
    ⟨fun _ _ => [], fun _ _ _ => [("title", "T"), ("body", "B"),
      ("locale", "en-us")], fun _ => []⟩
    "x" (fun _ b => b) (fun s => s) []
    [⟨"T", "B", "c",
      [⟨"T", "B", "s",
        [⟨"T", "B", "a", [⟨"en-US", "T", "B"⟩], [("id", JVal.n 30)]⟩],
        [⟨"en-US", "T", "B"⟩], [("id", JVal.n 20)]⟩],
      [⟨"en-US", "T", "B"⟩], [("id", JVal.n 10)]⟩]
    rfl (by
      simp only [CategoryClean, SectionClean, ArticleClean, GroupItemClean,
        RemoteHasEqual]
      decide)).1

/-! ## Saver (`filesystem.py`, `Saver`)

`Saver._save_item` writes an entity's metadata and content JSON;
`Saver.save` walks category → sections → articles, additionally writing each
article's body text.  Translation files are **not** written by the Saver. -/

/-- `Group.to_content`. -/
def groupContentObj (name desc : String) : JObj :=
  [("name", .s name), ("description", .s desc)]

/-- `Article.to_content`. -/
def articleContentObj (a : Article) : JObj :=
  [("name", .s a.name)]

/-- The Saver's writes for one article: meta, content, body. -/
def saveArticleFs (fs : FS) (secPath : Fpath) (a : Article) : FS :=
  ((fs.saveJson (articleMetaPath secPath a.filename) a.meta).saveJson
    (articleContentPath secPath a.filename) (articleContentObj a)).writeText
    (articleBodyPath secPath a.filename) a.body

/-- The Saver's writes for one section and its articles. -/
def saveSectionFs (fs : FS) (catPath : Fpath) (s : Section) : FS :=
  let p := catPath ++ [s.filename]
  let fs2 := (fs.saveJson (groupMetaPath p) s.meta).saveJson
    (groupContentPath p) (groupContentObj s.name s.description)
  s.articles.foldl (fun acc a => saveArticleFs acc p a) fs2

/-- The Saver's writes for one category and its subtree. -/
def saveCategoryFs (fs : FS) (c : Category) : FS :=
  let fs2 := (fs.saveJson (groupMetaPath [c.filename]) c.meta).saveJson
    (groupContentPath [c.filename]) (groupContentObj c.name c.description)
  c.sections.foldl (fun acc s => saveSectionFs acc [c.filename] s) fs2

/-- `Saver.save`. -/
def saverSave (fs : FS) (cats : List Category) : FS :=
  cats.foldl saveCategoryFs fs

/-! ## Loader (`filesystem.py`, `Loader`)

The Loader self-heals non-slug names (renaming files/directories on disk),
reads metadata (absent file → empty mapping), backfills absent content with a
`{name: basename}` stub, and gathers translations by scanning sibling files
(groups) or sibling locale directories (articles).  A `none` result models an
uncaught Python exception (`KeyError` on a content mapping without `name` in
`from_dict`, or on a group translation without `description`); string-typed
content fields are assumed, as produced by the Saver and the remote APIs. -/

/-- `Loader._slugify_name`: slugify (re-prepending a leading dot), move the
file/directory when the name changes, return the new basename. -/
def slugifyNameFs (fs : FS) (dirPath : Fpath) (name ext : String) :
    FS × String :=
  let sl0 := slugify0 name
  let sl := if strStartsWith name "." then "." ++ sl0 else sl0
  if name == sl then (fs, sl ++ ext)
  else (fs.move (dirPath ++ [name ++ ext]) (dirPath ++ [sl ++ ext]), sl ++ ext)

/-- `Loader._slugify_article` on one basename below a directory. -/
def slugifyArticleFile (fs : FS) (dir : Fpath) (base : String) : FS × Fpath :=
  let pr0 := splitExt base
  let pr := slugifyNameFs fs dir pr0.1 pr0.2
  (pr.1, dir ++ [pr.2])

/-- `Loader._load_category` (via `_slugify_category`): slugify the directory
basename, read meta and content (stubbing absent content with the slugified
basename), build the entity. -/
def loadCategory (fs : FS) (dirBase : String) : Option (FS × Category) :=
  let pr := slugifyNameFs fs [] dirBase ""
  let catName := pr.2
  let fs2 := pr.1
  do
    let meta ← fs2.readJson (groupMetaPath [catName])
    let content0 ← fs2.readJson (groupContentPath [catName])
    let content := if content0.isEmpty then [("name", JVal.s catName)]
      else content0
    let nm ← (jGet content "name").bind jAsStr
    let desc := ((jGet content "description").bind jAsStr).getD ""
    some (fs2, ⟨nm, desc, catName, [], [], pySetMeta (some meta)⟩)

/-- `Loader._load_section`: the content stub uses the directory name as
listed (before slugification). -/
def loadSection (fs : FS) (catPath : Fpath) (sectionName : String) :
    Option (FS × Section) :=
  let pr := slugifyNameFs fs catPath sectionName ""
  let slugName := pr.2
  let fs2 := pr.1
  let p := catPath ++ [slugName]
  do
    let meta ← fs2.readJson (groupMetaPath p)
    let content0 ← fs2.readJson (groupContentPath p)
    let content := if content0.isEmpty then [("name", JVal.s sectionName)]
      else content0
    let nm ← (jGet content "name").bind jAsStr
    let desc := ((jGet content "description").bind jAsStr).getD ""
    some (fs2, ⟨nm, desc, slugName, [], [], pySetMeta (some meta)⟩)

/-- `Loader._load_article`: slugify the three file paths (meta, content,
body), read them (stubbing absent content with the listed article name), build
the entity with the slugified name. -/
def loadArticle (fs : FS) (secPath : Fpath) (an : String) :
    Option (FS × Article) :=
  let d := articleDirOf secPath
  let p1 := slugifyArticleFile fs d (".article_" ++ an ++ ".meta")
  let p2 := slugifyArticleFile p1.1 d (an ++ ".json")
  let p3 := slugifyArticleFile p2.1 d (an ++ ".mkdown")
  let fs3 := p3.1
  do
    let meta ← fs3.readJson p1.2
    let content0 ← fs3.readJson p2.2
    let content := if content0.isEmpty then [("name", JVal.s an)] else content0
    let body := fs3.readText p3.2
    let nm ← (jGet content "name").bind jAsStr
    some (fs3, ⟨nm, body, slugify0 an, [], pySetMeta (some meta)⟩)

/-- Characters admitted by the locale group of `GROUP_TRANSLATION_PATTERN`,
regex class `[a-zA-Z-]`. -/
def localeChar (c : Char) : Bool := (cUpper c || cLower c) || c == '-'

/-- One greedy attempt of the backtracking group `([a-zA-Z-]{2,5})` followed
by the (wildcard-dot) `.json` tail of the pattern. -/
def groupLocTryK (k : Nat) (rest : List Char) : Option String :=
  let g := rest.take k
  if g.length == k && g.all localeChar then
    match rest.drop k with
    | _ :: t => if "json".data.isPrefixOf t then some ⟨g⟩ else none
    | [] => none
  else none

/-- `re.match('__group__.([a-zA-Z-]{2,5}).json', filename)` (the dots in the
pattern are wildcards and `re.match` anchors only the start): the matched
locale group, if any, trying the greedy lengths 5, 4, 3, 2 in order. -/
def groupLocaleMatch (fname : String) : Option String :=
  if strStartsWith fname "__group__" then
    match fname.data.drop 9 with
    | [] => none
    | _ :: rest =>
      (groupLocTryK 5 rest).orElse fun _ =>
        (groupLocTryK 4 rest).orElse fun _ =>
          (groupLocTryK 3 rest).orElse fun _ => groupLocTryK 2 rest
  else none

/-- `Loader._group_locales`: locales matched among the group's files, plus the
empty string standing for the default locale. -/
def groupLocales (fs : FS) (groupPath : Fpath) : List String :=
  ((fs.childFiles groupPath).filterMap groupLocaleMatch) ++ [""]

/-- `Group.content_translation_filepath`: the bare content file for the
(falsy) default locale, `__group__.<locale>.json` otherwise. -/
def groupContentTransPath (groupPath : Fpath) (locale : String) : Fpath :=
  groupPath ++
    ["__group__" ++ (if locale.data.isEmpty then "" else "." ++ locale) ++
      ".json"]

/-- The loop of `Loader._group_translations` over the discovered locales;
entries without a `name` key are skipped. -/
def loadGroupTranslations (fs : FS) (groupPath : Fpath) :
    List String → Option (List GroupTranslation)
  | [] => some []
  | locale :: rest => do
    let content ← fs.readJson (groupContentTransPath groupPath locale)
    match jGet content "name" with
    | some nv => do
      let n ← jAsStr nv
      let d ← (jGet content "description").bind jAsStr
      let ts ← loadGroupTranslations fs groupPath rest
      some (mkGroupTranslation locale n d :: ts)
    | none => loadGroupTranslations fs groupPath rest

/-- `Loader._group_translations`. -/
def loadGroupTranslationsAll (fs : FS) (groupPath : Fpath) :
    Option (List GroupTranslation) :=
  loadGroupTranslations fs groupPath (groupLocales fs groupPath)

/-- The loop of `Loader._article_translations` over the locale directories of
the section; entries without a `name` key are skipped. -/
def loadArticleTranslations (fs : FS) (secPath : Fpath) (slug : String) :
    List String → Option (List ArticleTranslation)
  | [] => some []
  | locale :: rest => do
    let content ← fs.readJson (secPath ++ [locale, slug ++ ".json"])
    let body := fs.readText (secPath ++ [locale, slug ++ ".mkdown"])
    match jGet content "name" with
    | some nv => do
      let n ← jAsStr nv
      let ts ← loadArticleTranslations fs secPath slug rest
      some (⟨locale, n, body⟩ :: ts)
    | none => loadArticleTranslations fs secPath slug rest

/-- `Loader._article_translations`, over `_article_locales` (every
subdirectory of the section, the default locale's included). -/
def loadArticleTranslationsAll (fs : FS) (secPath : Fpath) (slug : String) :
    Option (List ArticleTranslation) :=
  loadArticleTranslations fs secPath slug (fs.childDirs secPath)

/-- `Loader._filter_article_names`: stems of the `.mkdown` files. -/
def filterArticleNames (files : List String) : List String :=
  (files.filter (fun f => strEndsWith f ".mkdown")).map fun f => (splitExt f).1

/-- The article loop of `Loader._fill_articles`. -/
def fillArticlesAux (secPath : Fpath) :
    FS → List String → Option (FS × List Article)
  | fs, [] => some (fs, [])
  | fs, an :: rest => do
    let r1 ← loadArticle fs secPath an
    let ts ← loadArticleTranslationsAll r1.1 secPath r1.2.filename
    let r2 ← fillArticlesAux secPath r1.1 rest
    some (r2.1, { r1.2 with translations := ts } :: r2.2)

/-- `Loader._fill_articles`: list the default-locale directory's `.mkdown`
files (the directory is first ensured to exist, which the model's listing of a
missing directory — the empty list — already reflects) and load each
article. -/
def fillArticles (fs : FS) (secPath : Fpath) : Option (FS × List Article) :=
  fillArticlesAux secPath fs
    (filterArticleNames (fs.childFiles (articleDirOf secPath)))

/-- The section loop of `Loader._fill_sections`: per section, load it, attach
its group translations, then fill its articles. -/
def fillSectionsAux (catPath : Fpath) :
    FS → List String → Option (FS × List Section)
  | fs, [] => some (fs, [])
  | fs, dn :: rest => do
    let r1 ← loadSection fs catPath dn
    let ts ← loadGroupTranslationsAll r1.1 (catPath ++ [r1.2.filename])
    let r2 ← fillArticles r1.1 (catPath ++ [r1.2.filename])
    let r3 ← fillSectionsAux catPath r2.1 rest
    some (r3.1, { r1.2 with translations := ts, articles := r2.2 } :: r3.2)

/-- `Loader._fill_category`. -/
def fillCategory (fs : FS) (dirBase : String) : Option (FS × Category) := do
  let r1 ← loadCategory fs dirBase
  let ts ← loadGroupTranslationsAll r1.1 [r1.2.filename]
  let r2 ← fillSectionsAux [r1.2.filename] r1.1 (r1.1.childDirs [r1.2.filename])
  some (r2.1, { r1.2 with translations := ts, sections := r2.2 })

/-- The category loop of `Loader.load`. -/
def loadRootAux : FS → List String → Option (FS × List Category)
  | fs, [] => some (fs, [])
  | fs, dn :: rest => do
    let r1 ← fillCategory fs dn
    let r2 ← loadRootAux r1.1 rest
    some (r2.1, r1.2 :: r2.2)

/-- `Loader.load`: fill one category per root directory entry. -/
def loaderLoad (fs : FS) : Option (FS × List Category) :=
  loadRootAux fs (fs.childDirs [])

/-! ## Import fetch (`zendesk.py`, `Fetcher`; `main.py`, `ImportTask`)

The Fetcher converts remote records into fresh entities: slugified filename,
record adopted as metadata, article HTML bodies converted through `html2text`
(a parameter `h2t`). -/

/-- Remote-state oracle for the Fetcher: the category listing, and the section
and article listings keyed by the parent's id rendering. -/
structure ZdRemote where
  categories : List JObj
  sections : String → List JObj
  articles : String → List JObj

/-- The article loop of `Fetcher.fetch`. -/
def fetchArticleList (h2t : String → String) :
    List JObj → Option (List Article)
  | [] => some []
  | r :: rest => do
    let bodyRaw ← (jGet r "body").bind jAsStr
    let title ← (jGet r "title").bind jAsStr
    let more ← fetchArticleList h2t rest
    some (⟨title, h2t bodyRaw, slugify0 title, [], pySetMeta (some r)⟩ :: more)

/-- The section loop of `Fetcher.fetch`. -/
def fetchSectionList (h2t : String → String) (remote : ZdRemote) :
    List JObj → Option (List Section)
  | [] => some []
  | r :: rest => do
    let nm ← (jGet r "name").bind jAsStr
    let desc ← (jGet r "description").bind jAsStr
    let arts ← fetchArticleList h2t (remote.articles (pyStr (jGet r "id")))
    let more ← fetchSectionList h2t remote rest
    some (⟨nm, desc, slugify0 nm, arts, [], pySetMeta (some r)⟩ :: more)

/-- The category loop of `Fetcher.fetch`. -/
def fetchCategoryList (h2t : String → String) (remote : ZdRemote) :
    List JObj → Option (List Category)
  | [] => some []
  | r :: rest => do
    let nm ← (jGet r "name").bind jAsStr
    let desc ← (jGet r "description").bind jAsStr
    let secs ← fetchSectionList h2t remote
      (remote.sections (pyStr (jGet r "id")))
    let more ← fetchCategoryList h2t remote rest
    some (⟨nm, desc, slugify0 nm, secs, [], pySetMeta (some r)⟩ :: more)

/-- `Fetcher.fetch`. -/
def fetcherFetch (h2t : String → String) (remote : ZdRemote) :
    Option (List Category) :=
  fetchCategoryList h2t remote remote.categories

/-- `ImportTask.execute`: fetch the remote tree and save it locally. -/
def importTask (h2t : String → String) (remote : ZdRemote) (fs : FS) :
    Option FS := do
  let cats ← fetcherFetch h2t remote
  some (saverSave fs cats)

/-- C9: import scenario.  Fetching a remote tree holding one category
"Billing" (id 10), one section "Invoices" (id 20, under 10) and one article
"How to pay" (id 30, body `<p>Pay here</p>`) and saving it into an empty root
produces the file `billing/invoices/en-US/how-to-pay.mkdown` holding the
`html2text` conversion of the body — which contains `Pay here` — and the
sibling `how-to-pay.json` holding exactly `{"name": "How to pay"}`.  The
`html2text` library is a parameter `h2t`, assumed (as it does) to keep the
text `Pay here` in its conversion of `<p>Pay here</p>`. -/
theorem c9_import_scenario (h2t : String → String)
    (hconv : ∃ pre post, h2t "<p>Pay here</p>" = pre ++ "Pay here" ++ post) :
    ∃ fs, importTask h2t
        ⟨[[("name", JVal.s "Billing"), ("description", JVal.s ""),
            ("id", JVal.n 10)]],
          fun i => if i == "10" then
            [[("name", JVal.s "Invoices"), ("description", JVal.s ""),
              ("id", JVal.n 20)]] else [],
          fun i => if i == "20" then
            [[("title", JVal.s "How to pay"),
              ("body", JVal.s "<p>Pay here</p>"), ("id", JVal.n 30)]]
            else []⟩ [] = some fs ∧
      fs.read? ["billing", "invoices", "en-US", "how-to-pay.mkdown"] =
        some (.txt (h2t "<p>Pay here</p>")) ∧
      (∃ pre post,
        fs.readText ["billing", "invoices", "en-US", "how-to-pay.mkdown"] =
          pre ++ "Pay here" ++ post) ∧
      fs.read? ["billing", "invoices", "en-US", "how-to-pay.json"] =
        some (.jsn [("name", JVal.s "How to pay")]) := by
  obtain ⟨pre, post, hsplit⟩ := hconv
  exact ⟨_, rfl, rfl, ⟨pre, post, hsplit⟩, rfl⟩

/-- Witness for C9 with a concrete `html2text` stand-in. -/
theorem c9_witness :
    ∃ fs, importTask (fun _ => "Pay here\n\n")
        ⟨[[("name", JVal.s "Billing"), ("description", JVal.s ""),
            ("id", JVal.n 10)]],
          fun i => if i == "10" then
            [[("name", JVal.s "Invoices"), ("description", JVal.s ""),
              ("id", JVal.n 20)]] else [],
          fun i => if i == "20" then
            [[("title", JVal.s "How to pay"),
              ("body", JVal.s "<p>Pay here</p>"), ("id", JVal.n 30)]]
            else []⟩ [] = some fs ∧
      fs.read? ["billing", "invoices", "en-US", "how-to-pay.mkdown"] =
        some (.txt ((fun _ => "Pay here\n\n") "<p>Pay here</p>")) ∧
      (∃ pre post,
        fs.readText ["billing", "invoices", "en-US", "how-to-pay.mkdown"] =
          pre ++ "Pay here" ++ post) ∧
      fs.read? ["billing", "invoices", "en-US", "how-to-pay.json"] =
        some (.jsn [("name", JVal.s "How to pay")]) :=
  c9_import_scenario (fun _ => "Pay here\n\n") ⟨"", "\n\n", by decide⟩

/-! ## Slug-stability lemmas

A name that is already a slug (`slugify0 f = f`, nonempty) is left untouched
by the Loader's self-healing renames; these lemmas characterize such names. -/

/-- A nonempty name that `slugify` maps to itself. -/
def SlugName (f : String) : Prop := f.data ≠ [] ∧ slugify0 f = f

theorem SlugName.chars {f : String} (h : SlugName f) :
    ∀ c ∈ f.data, slugOutChar c = true := by
  intro c hc
  rw [← h.2] at hc
  exact slugify_chars hc

theorem SlugName.nodd {f : String} (h : SlugName f) : noDD f.data = true := by
  conv_lhs => rw [← h.2]
  exact collapseDS_noDD _

theorem slugOutChar_ne_dot {c : Char} (h : slugOutChar c = true) :
    (('.' : Char) == c) = false := by
  cases hbe : ('.' : Char) == c with
  | false => rfl
  | true =>
    have : ('.' : Char) = c := by simpa using hbe
    subst this
    exact absurd h (by decide)

theorem SlugName.not_dot {f : String} (h : SlugName f) :
    strStartsWith f "." = false := by
  cases hd : f.data with
  | nil => exact absurd hd h.1
  | cons c t =>
    have hc : slugOutChar c = true := h.chars c (by rw [hd]; simp)
    unfold strStartsWith
    rw [hd]
    show List.isPrefixOf ['.'] (c :: t) = false
    rw [List.isPrefixOf]
    rw [slugOutChar_ne_dot hc]
    rfl

theorem slugify0_fix {f : String}
    (hchars : ∀ c ∈ f.data, slugOutChar c = true)
    (hnodd : noDD f.data = true) : slugify0 f = f := by
  unfold slugify0 slugify
  rw [asciiFilter_asciiId f (fun c hc => slugOutChar_ascii (hchars c hc))]
  rw [slugifyChars_fix hchars hnodd]

theorem noDD_tail {c : Char} {l : List Char} (h : noDD (c :: l) = true) :
    noDD l = true := by
  cases l with
  | nil => rfl
  | cons d t =>
    rw [noDD] at h
    simp only [Bool.and_eq_true] at h
    exact h.2

theorem noDD_append {l1 l2 : List Char} (h1 : noDD l1 = true)
    (h2 : noDD l2 = true)
    (hmid : ∀ a b, l1.getLast? = some a → l2.head? = some b →
      (a == '-') = false ∨ (b == '-') = false) :
    noDD (l1 ++ l2) = true := by
  induction l1 with
  | nil => simpa using h2
  | cons c t ih =>
    cases t with
    | nil =>
      simp only [List.cons_append, List.nil_append]
      cases l2 with
      | nil => rfl
      | cons d u =>
        rw [noDD]
        have hcd := hmid c d rfl rfl
        have hx : (c == '-' && d == '-') = false := by
          rcases hcd with hc | hd
          · simp [hc]
          · simp [hd]
        rw [hx, h2]
        rfl
    | cons c2 t2 =>
      have hfirst : (c == '-' && c2 == '-') = false := by
        rw [noDD] at h1
        simp only [Bool.and_eq_true] at h1
        have hb := h1.1
        cases hcc : (c == '-' && c2 == '-') with
        | false => rfl
        | true => rw [hcc] at hb; exact absurd hb (by decide)
      have hrest : noDD ((c2 :: t2) ++ l2) = true := by
        apply ih (noDD_tail h1)
        intro a b ha hb
        apply hmid a b ?_ hb
        rw [← ha]
        rfl
      show noDD (c :: c2 :: (t2 ++ l2)) = true
      rw [noDD]
      have : noDD (c2 :: (t2 ++ l2)) = true := hrest
      rw [this, hfirst]
      rfl

theorem splitLastDot_none {l : List Char} (h : ∀ c ∈ l, (c == '.') = false) :
    splitLastDot l = none := by
  induction l with
  | nil => rfl
  | cons c t ih =>
    rw [splitLastDot, ih fun x hx => h x (by simp [hx]), h c (by simp)]
    rfl

theorem splitLastDot_append {a b : List Char}
    (hb : ∀ c ∈ b, (c == '.') = false) :
    splitLastDot (a ++ '.' :: b) = some (a, b) := by
  induction a with
  | nil =>
    rw [List.nil_append, splitLastDot, splitLastDot_none hb]
    rfl
  | cons c a2 ih =>
    rw [List.cons_append, splitLastDot, ih]

theorem splitExt_plain {f e : String}
    (hf : ∃ c t, f.data = c :: t ∧ (c == '.') = false)
    (he : ∀ c ∈ e.data, (c == '.') = false) :
    splitExt (f ++ "." ++ e) = (f, "." ++ e) := by
  obtain ⟨c, t, hft, hcd⟩ := hf
  have hdata : (f ++ "." ++ e).data = f.data ++ '.' :: e.data := by
    rw [String.data_append, String.data_append, List.append_assoc]
    rfl
  unfold splitExt splitExtChars
  rw [hdata, hft]
  rw [List.cons_append, List.takeWhile_cons_of_neg (by simp [hcd])]
  simp only [List.length_nil, List.drop_zero]
  rw [← List.cons_append, ← hft, splitLastDot_append he]
  refine Prod.ext ?_ ?_
  · show String.mk ([] ++ f.data) = f
    rw [List.nil_append]
  · show String.mk ('.' :: e.data) = "." ++ e
    apply String.ext
    rw [String.data_append]
    rfl

theorem splitExt_dot_prefixed {g e : String}
    (hg : ∃ c t, g.data = c :: t ∧ (c == '.') = false)
    (he : ∀ c ∈ e.data, (c == '.') = false) :
    splitExt ("." ++ g ++ "." ++ e) = ("." ++ g, "." ++ e) := by
  obtain ⟨c, t, hgt, hcd⟩ := hg
  have hdata : ("." ++ g ++ "." ++ e).data = '.' :: (g.data ++ '.' :: e.data)
      := by
    rw [String.data_append, String.data_append, String.data_append,
      List.append_assoc, List.append_assoc]
    rfl
  unfold splitExt splitExtChars
  rw [hdata]
  rw [List.takeWhile_cons_of_pos (by decide)]
  rw [hgt, List.cons_append, List.takeWhile_cons_of_neg (by simp [hcd])]
  simp only [List.length_cons, List.length_nil, List.drop_succ_cons,
    List.drop_zero]
  rw [← List.cons_append, ← hgt, splitLastDot_append he]
  refine Prod.ext ?_ ?_
  · show String.mk ('.' :: [] ++ g.data) = "." ++ g
    apply String.ext
    rw [String.data_append]
  · show String.mk ('.' :: e.data) = "." ++ e
    apply String.ext
    rw [String.data_append]
    rfl

theorem slugify0_dot {g : String}
    (hchars : ∀ c ∈ g.data, slugOutChar c = true)
    (hnodd : noDD g.data = true) : slugify0 ("." ++ g) = g := by
  have hascii : ∀ c ∈ ("." ++ g).data, c.toNat ≤ 127 := by
    intro c hc
    rw [String.data_append] at hc
    rcases List.mem_append.mp hc with hc | hc
    · have : c = '.' := by simpa using hc
      subst this
      decide
    · exact slugOutChar_ascii (hchars c hc)
  unfold slugify0 slugify
  rw [asciiFilter_asciiId _ hascii]
  have hdata : ("." ++ g).data = '.' :: g.data := by
    rw [String.data_append]
    rfl
  rw [hdata]
  unfold slugifyChars
  rw [List.filter_cons_of_neg (by decide)]
  rw [List.filter_eq_self.mpr fun c hc => slugOut_wordKeep (hchars c hc)]
  rw [stripChars_eq_self fun c hc => slugOutChar_not_space (hchars c hc)]
  rw [map_eq_self_of_fix fun c hc => by
    unfold lowerChar
    rw [if_neg]
    simp [slugOutChar_not_upper (hchars c hc)]]
  rw [collapseDS_fix (fun c hc => slugOutChar_not_space (hchars c hc)) hnodd]

theorem slugOutChar_ne_dot2 {c : Char} (h : slugOutChar c = true) :
    (c == '.') = false := by
  cases hbe : c == '.' with
  | false => rfl
  | true =>
    have : c = '.' := by simpa using hbe
    subst this
    exact absurd h (by decide)

theorem slugifyNameFs_slug {f : String} (h : SlugName f) (fs : FS) (d : Fpath)
    (ext : String) : slugifyNameFs fs d f ext = (fs, f ++ ext) := by
  simp only [slugifyNameFs, h.not_dot, Bool.false_eq_true, if_false, h.2,
    beq_self_eq_true, if_true]

theorem slugifyNameFs_dot {g : String}
    (hchars : ∀ c ∈ g.data, slugOutChar c = true)
    (hnodd : noDD g.data = true) (fs : FS) (d : Fpath)
    (ext : String) :
    slugifyNameFs fs d ("." ++ g) ext = (fs, "." ++ g ++ ext) := by
  have hdot : strStartsWith ("." ++ g) "." = true := by
    unfold strStartsWith
    rw [String.data_append]
    show List.isPrefixOf ['.'] ('.' :: g.data) = true
    rw [List.isPrefixOf]
    simp
  simp only [slugifyNameFs, hdot, if_true, slugify0_dot hchars hnodd,
    beq_self_eq_true]

theorem slugifyArticleFile_plain {an ext : String} (h : SlugName an)
    (hext : ∀ c ∈ ext.data, (c == '.') = false) (fs : FS) (d : Fpath) :
    slugifyArticleFile fs d (an ++ "." ++ ext) = (fs, d ++ [an ++ "." ++ ext])
    := by
  have hf : ∃ c t, an.data = c :: t ∧ (c == '.') = false := by
    cases hd : an.data with
    | nil => exact absurd hd h.1
    | cons c t =>
      exact ⟨c, t, rfl, slugOutChar_ne_dot2 (h.chars c (by rw [hd]; simp))⟩
  unfold slugifyArticleFile
  rw [splitExt_plain hf hext]
  show ((slugifyNameFs fs d an ("." ++ ext)).1,
    d ++ [(slugifyNameFs fs d an ("." ++ ext)).2]) = _
  rw [slugifyNameFs_slug h]
  exact congrArg (fun x => (fs, d ++ [x])) (String.append_assoc an "." ext).symm

theorem article_meta_name_eq (an : String) :
    ".article_" ++ an ++ ".meta" = "." ++ ("article_" ++ an) ++ "." ++ "meta"
    := by
  apply String.ext
  simp only [String.data_append, List.append_assoc]
  rfl

theorem article_g_head (an : String) :
    ∃ c t, ("article_" ++ an).data = c :: t ∧ (c == '.') = false := by
  refine ⟨'a', "rticle_".data ++ an.data, ?_, by decide⟩
  rw [String.data_append]
  rfl

theorem article_g_chars {an : String} (h : SlugName an) :
    ∀ c ∈ ("article_" ++ an).data, slugOutChar c = true := by
  intro c hc
  rw [String.data_append] at hc
  rcases List.mem_append.mp hc with hc | hc
  · have hall : ∀ x ∈ ("article_".data : List Char), slugOutChar x = true :=
      by decide
    exact hall c hc
  · exact h.chars c hc

theorem article_g_nodd {an : String} (h : SlugName an) :
    noDD ("article_" ++ an).data = true := by
  rw [String.data_append]
  apply noDD_append (by decide) h.nodd
  intro a b ha _
  left
  have : a = '_' := by
    have hlast : ("article_".data : List Char).getLast? = some '_' := by decide
    rw [hlast] at ha
    simpa using ha.symm
  subst this
  decide

theorem slugifyArticleFile_meta {an : String} (h : SlugName an) (fs : FS)
    (d : Fpath) :
    slugifyArticleFile fs d (".article_" ++ an ++ ".meta") =
      (fs, d ++ [".article_" ++ an ++ ".meta"]) := by
  have hgne : ("article_" ++ an).data ≠ [] := by
    obtain ⟨c, t, hct, _⟩ := article_g_head an
    rw [hct]
    simp
  unfold slugifyArticleFile
  rw [article_meta_name_eq an]
  rw [splitExt_dot_prefixed (article_g_head an) (by decide)]
  show ((slugifyNameFs fs d ("." ++ ("article_" ++ an)) ("." ++ "meta")).1,
    d ++ [(slugifyNameFs fs d ("." ++ ("article_" ++ an)) ("." ++ "meta")).2])
    = _
  rw [slugifyNameFs_dot (article_g_chars h) (article_g_nodd h)]
  show (fs, d ++ ["." ++ ("article_" ++ an) ++ ("." ++ "meta")]) = _
  refine congrArg (fun x => (fs, d ++ [x])) ?_
  apply String.ext
  simp [String.data_append]

theorem loadCategory_eq {f : String} (h : SlugName f) (fs : FS) :
    loadCategory fs f = (do
      let meta ← fs.readJson (groupMetaPath [f])
      let content0 ← fs.readJson (groupContentPath [f])
      let content := if content0.isEmpty then [("name", JVal.s f)]
        else content0
      let nm ← (jGet content "name").bind jAsStr
      let desc := ((jGet content "description").bind jAsStr).getD ""
      some (fs, ⟨nm, desc, f, [], [], pySetMeta (some meta)⟩)) := by
  simp only [loadCategory, slugifyNameFs_slug h, String.append_empty]

theorem loadSection_eq {f : String} (h : SlugName f) (fs : FS)
    (catPath : Fpath) :
    loadSection fs catPath f = (do
      let meta ← fs.readJson (groupMetaPath (catPath ++ [f]))
      let content0 ← fs.readJson (groupContentPath (catPath ++ [f]))
      let content := if content0.isEmpty then [("name", JVal.s f)]
        else content0
      let nm ← (jGet content "name").bind jAsStr
      let desc := ((jGet content "description").bind jAsStr).getD ""
      some (fs, ⟨nm, desc, f, [], [], pySetMeta (some meta)⟩)) := by
  simp only [loadSection, slugifyNameFs_slug h, String.append_empty]

theorem json_ext_eq (an : String) : an ++ ".json" = an ++ "." ++ "json" := by
  apply String.ext
  simp only [String.data_append, List.append_assoc]
  rfl

theorem mkdown_ext_eq (an : String) :
    an ++ ".mkdown" = an ++ "." ++ "mkdown" := by
  apply String.ext
  simp only [String.data_append, List.append_assoc]
  rfl

theorem loadArticle_eq {an : String} (h : SlugName an) (fs : FS)
    (secPath : Fpath) :
    loadArticle fs secPath an = (do
      let meta ← fs.readJson (articleMetaPath secPath an)
      let content0 ← fs.readJson (articleContentPath secPath an)
      let content := if content0.isEmpty then [("name", JVal.s an)]
        else content0
      let body := fs.readText (articleBodyPath secPath an)
      let nm ← (jGet content "name").bind jAsStr
      some (fs, ⟨nm, body, an, [], pySetMeta (some meta)⟩)) := by
  simp only [loadArticle, slugifyArticleFile_meta h,
    json_ext_eq an, mkdown_ext_eq an,
    slugifyArticleFile_plain h (by decide : ∀ c ∈ ("json" : String).data,
      (c == '.') = false),
    slugifyArticleFile_plain h (by decide : ∀ c ∈ ("mkdown" : String).data,
      (c == '.') = false),
    articleMetaPath, articleContentPath, articleBodyPath, h.2]

/-- C6: loading never fails on an absent content file.  For a category,
section or article whose content JSON file is absent, the loader backfills the
content with the stub `{name: basename}` built from the (already slugified)
directory or file basename and returns an entity — no error is raised: the
entity's name is the basename, a group's description defaults to empty, and
the metadata is whatever the metadata file held. -/
theorem c6_missing_content_stub (fs : FS) (catName secName artName : String)
    (catPath secPath : Fpath) (mc ms ma : JObj)
    (h1 : SlugName catName) (h2 : SlugName secName) (h3 : SlugName artName)
    (hmc : fs.readJson (groupMetaPath [catName]) = some mc)
    (hcc : fs.read? (groupContentPath [catName]) = none)
    (hms : fs.readJson (groupMetaPath (catPath ++ [secName])) = some ms)
    (hcs : fs.read? (groupContentPath (catPath ++ [secName])) = none)
    (hma : fs.readJson (articleMetaPath secPath artName) = some ma)
    (hca : fs.read? (articleContentPath secPath artName) = none) :
    loadCategory fs catName =
      some (fs, ⟨catName, "", catName, [], [], pySetMeta (some mc)⟩) ∧
    loadSection fs catPath secName =
      some (fs, ⟨secName, "", secName, [], [], pySetMeta (some ms)⟩) ∧
    loadArticle fs secPath artName =
      some (fs, ⟨artName, fs.readText (articleBodyPath secPath artName),
        artName, [], pySetMeta (some ma)⟩) := by
  refine ⟨?_, ?_, ?_⟩
  · rw [loadCategory_eq h1, hmc]
    have hcj : fs.readJson (groupContentPath [catName]) = some [] := by
      unfold FS.readJson
      rw [hcc]
    rw [hcj]
    rfl
  · rw [loadSection_eq h2, hms]
    have hcj : fs.readJson (groupContentPath (catPath ++ [secName])) = some []
        := by
      unfold FS.readJson
      rw [hcs]
    rw [hcj]
    rfl
  · rw [loadArticle_eq h3, hma]
    have hcj : fs.readJson (articleContentPath secPath artName) = some [] := by
      unfold FS.readJson
      rw [hca]
    rw [hcj]
    rfl

/-- Witness for C6: a tree holding only the three metadata files — no content
files — for category `billing`, section `invoices` below `["billing"]` and
article `pay` below `["billing", "invoices"]`. -/
theorem c6_witness :
    loadCategory
      [(["billing", ".group.meta"], FileData.jsn [("id", JVal.n 1)]),
        (["billing", "invoices", ".group.meta"],
          FileData.jsn [("id", JVal.n 2)]),
        (["billing", "invoices", "en-US", ".article_pay.meta"],
          FileData.jsn [("id", JVal.n 3)])] "billing" =
      some ([(["billing", ".group.meta"], FileData.jsn [("id", JVal.n 1)]),
        (["billing", "invoices", ".group.meta"],
          FileData.jsn [("id", JVal.n 2)]),
        (["billing", "invoices", "en-US", ".article_pay.meta"],
          FileData.jsn [("id", JVal.n 3)])],
        ⟨"billing", "", "billing", [], [],
          pySetMeta (some [("id", JVal.n 1)])⟩) ∧
    loadSection
      [(["billing", ".group.meta"], FileData.jsn [("id", JVal.n 1)]),
        (["billing", "invoices", ".group.meta"],
          FileData.jsn [("id", JVal.n 2)]),
        (["billing", "invoices", "en-US", ".article_pay.meta"],
          FileData.jsn [("id", JVal.n 3)])] ["billing"] "invoices" =
      some ([(["billing", ".group.meta"], FileData.jsn [("id", JVal.n 1)]),
        (["billing", "invoices", ".group.meta"],
          FileData.jsn [("id", JVal.n 2)]),
        (["billing", "invoices", "en-US", ".article_pay.meta"],
          FileData.jsn [("id", JVal.n 3)])],
        ⟨"invoices", "", "invoices", [], [],
          pySetMeta (some [("id", JVal.n 2)])⟩) ∧
    loadArticle
      [(["billing", ".group.meta"], FileData.jsn [("id", JVal.n 1)]),
        (["billing", "invoices", ".group.meta"],
          FileData.jsn [("id", JVal.n 2)]),
        (["billing", "invoices", "en-US", ".article_pay.meta"],
          FileData.jsn [("id", JVal.n 3)])] ["billing", "invoices"] "pay" =
      some ([(["billing", ".group.meta"], FileData.jsn [("id", JVal.n 1)]),
        (["billing", "invoices", ".group.meta"],
          FileData.jsn [("id", JVal.n 2)]),
        (["billing", "invoices", "en-US", ".article_pay.meta"],
          FileData.jsn [("id", JVal.n 3)])],
        ⟨"pay", FS.readText
          [(["billing", ".group.meta"], FileData.jsn [("id", JVal.n 1)]),
            (["billing", "invoices", ".group.meta"],
              FileData.jsn [("id", JVal.n 2)]),
            (["billing", "invoices", "en-US", ".article_pay.meta"],
              FileData.jsn [("id", JVal.n 3)])]
          (articleBodyPath ["billing", "invoices"] "pay"),
          "pay", [], pySetMeta (some [("id", JVal.n 3)])⟩) :=
  c6_missing_content_stub
    [(["billing", ".group.meta"], FileData.jsn [("id", JVal.n 1)]),
      (["billing", "invoices", ".group.meta"],
        FileData.jsn [("id", JVal.n 2)]),
      (["billing", "invoices", "en-US", ".article_pay.meta"],
        FileData.jsn [("id", JVal.n 3)])]
    "billing" "invoices" "pay" ["billing"] ["billing", "invoices"]
    [("id", JVal.n 1)] [("id", JVal.n 2)] [("id", JVal.n 3)]
    ⟨by decide, by decide⟩ ⟨by decide, by decide⟩ ⟨by decide, by decide⟩
    rfl rfl rfl rfl rfl rfl

/-! ## Round trip: save then load (claim groundwork)

The Saver, run on an empty root, lays down one file per write; under the
well-formedness conditions below (slug filenames, sibling names distinct) no
write overwrites another and the loader's self-healing renames are no-ops, so
the saved tree is literally the concatenation of each entity's files. -/

/-- The three files the Saver writes for one article. -/
def articleFiles (secPath : Fpath) (a : Article) : List (Fpath × FileData) :=
  [(articleMetaPath secPath a.filename, .jsn (sortByKey a.meta)),
    (articleContentPath secPath a.filename,
      .jsn (sortByKey (articleContentObj a))),
    (articleBodyPath secPath a.filename, .txt a.body)]

/-- The files the Saver writes for one section and its articles. -/
def sectionFiles (catPath : Fpath) (s : Section) : List (Fpath × FileData) :=
  (groupMetaPath (catPath ++ [s.filename]), .jsn (sortByKey s.meta)) ::
    (groupContentPath (catPath ++ [s.filename]),
      .jsn (sortByKey (groupContentObj s.name s.description))) ::
    s.articles.flatMap (articleFiles (catPath ++ [s.filename]))

/-- The files the Saver writes for one category and its subtree. -/
def categoryFiles (c : Category) : List (Fpath × FileData) :=
  (groupMetaPath [c.filename], .jsn (sortByKey c.meta)) ::
    (groupContentPath [c.filename],
      .jsn (sortByKey (groupContentObj c.name c.description))) ::
    c.sections.flatMap (sectionFiles [c.filename])

/-- All files written when saving a category list into an empty root. -/
def treeFiles (cats : List Category) : List (Fpath × FileData) :=
  cats.flatMap categoryFiles

/-- Well-formed article: its filename is a slug. -/
def ArticleWF (a : Article) : Prop := SlugName a.filename

/-- Well-formed section: slug filename, distinct article filenames, and
well-formed articles. -/
def SectionWF (s : Section) : Prop :=
  SlugName s.filename ∧ (s.articles.map Article.filename).Nodup ∧
    ∀ a ∈ s.articles, ArticleWF a

/-- Well-formed category: slug filename, distinct section filenames, and
well-formed sections. -/
def CategoryWF (c : Category) : Prop :=
  SlugName c.filename ∧ (c.sections.map Section.filename).Nodup ∧
    ∀ s ∈ c.sections, SectionWF s

/-- Well-formed tree: distinct category filenames and well-formed
categories. -/
def TreeWF (cats : List Category) : Prop :=
  (cats.map Category.filename).Nodup ∧ ∀ c ∈ cats, CategoryWF c

/-- An article as the loader reproduces it: the metadata comes back with keys
sorted by the JSON serializer, and the translation list holds exactly the
default-locale translation built from the article's own content and body. -/
def canonArticle (a : Article) : Article :=
  { a with
    meta := sortByKey a.meta,
    translations := [⟨defaultLocale, a.name, a.body⟩] }

/-- A section as the loader reproduces it. -/
def canonSection (s : Section) : Section :=
  { s with
    meta := sortByKey s.meta,
    translations := [⟨defaultLocale, s.name, s.description⟩],
    articles := s.articles.map canonArticle }

/-- A category as the loader reproduces it. -/
def canonCategory (c : Category) : Category :=
  { c with
    meta := sortByKey c.meta,
    translations := [⟨defaultLocale, c.name, c.description⟩],
    sections := c.sections.map canonSection }

/-- No entry of `l` lies strictly below the directory `p`. -/
def AwayFrom (p : Fpath) (l : List (Fpath × FileData)) : Prop :=
  ∀ e ∈ l, ∀ x : String, ∀ rs : List String, e.1 ≠ p ++ x :: rs

theorem stripPfx_append (p r : Fpath) : stripPfx p (p ++ r) = some r := by
  induction p with
  | nil => rw [List.nil_append]; cases r <;> rfl
  | cons a p ih =>
    rw [List.cons_append, stripPfx]
    simp only [beq_self_eq_true, if_true]
    exact ih

theorem stripPfx_eq_some {p q r : Fpath} (h : stripPfx p q = some r) :
    q = p ++ r := by
  induction p generalizing q with
  | nil =>
    simp only [stripPfx, Option.some.injEq] at h
    rw [h]
    rfl
  | cons a p ih =>
    cases q with
    | nil => simp [stripPfx] at h
    | cons b q2 =>
      rw [stripPfx] at h
      cases hb : a == b with
      | false => rw [hb] at h; simp at h
      | true =>
        rw [hb] at h
        simp only [if_true] at h
        have hab : a = b := by simpa using hb
        rw [List.cons_append, ← hab, ih h]

theorem read?_append (l1 l2 : FS) (p : Fpath) :
    FS.read? (l1 ++ l2) p = (FS.read? l1 p).or (FS.read? l2 p) := by
  induction l1 with
  | nil => simp [FS.read?]
  | cons e l1 ih =>
    rw [List.cons_append, FS.read?, FS.read?]
    cases hb : e.1 == p with
    | true => simp
    | false => simp only [Bool.false_eq_true, if_false]; exact ih

theorem read?_away {l : FS} {p : Fpath} (h : AwayFrom p l) (x : String)
    (rs : List String) : FS.read? l (p ++ x :: rs) = none := by
  apply read?_eq_none_of_not_mem
  intro e he
  exact h e he x rs

theorem dirEntryOf_away {p : Fpath} {e : Fpath × FileData}
    (h : ∀ x : String, ∀ rs : List String, e.1 ≠ p ++ x :: rs) :
    dirEntryOf p e = none := by
  unfold dirEntryOf
  cases hs : stripPfx p e.1 with
  | none => rfl
  | some r =>
    cases r with
    | nil => rfl
    | cons d r2 =>
      cases r2 with
      | nil => rfl
      | cons d2 r3 => exact absurd (stripPfx_eq_some hs) (h d (d2 :: r3))

theorem fileEntryOf_away {p : Fpath} {e : Fpath × FileData}
    (h : ∀ x : String, ∀ rs : List String, e.1 ≠ p ++ x :: rs) :
    fileEntryOf p e = none := by
  unfold fileEntryOf
  cases hs : stripPfx p e.1 with
  | none => rfl
  | some r =>
    cases r with
    | nil => rfl
    | cons d r2 =>
      cases r2 with
      | nil => exact absurd (stripPfx_eq_some hs) (h d [])
      | cons d2 r3 => rfl

theorem filterMap_none_of_away {g : Fpath × FileData → Option String} {l : FS}
    (h : ∀ e ∈ l, g e = none) : l.filterMap g = [] := by
  induction l with
  | nil => rfl
  | cons e l ih =>
    rw [List.filterMap_cons, h e (by simp)]
    exact ih fun x hx => h x (by simp [hx])

theorem filterMap_const_replicate {g : Fpath × FileData → Option String}
    {l : FS} {v : String} (h : ∀ e ∈ l, g e = some v) :
    l.filterMap g = List.replicate l.length v := by
  induction l with
  | nil => rfl
  | cons e l ih =>
    rw [List.filterMap_cons, h e (by simp), List.length_cons,
      List.replicate_succ]
    rw [ih fun x hx => h x (by simp [hx])]

theorem contains_eq_false_of_not_mem {l : List String} {v : String}
    (h : v ∉ l) : l.contains v = false := by
  cases hc : l.contains v with
  | false => rfl
  | true => exact absurd (by simpa using hc) h

theorem fdg_replicate_skip {seen : List String} {v : String}
    (h : seen.contains v = true) (n : Nat) (rest : List String) :
    firstDedupGo seen (List.replicate n v ++ rest) = firstDedupGo seen rest
    := by
  induction n with
  | zero => rfl
  | succ m ih =>
    rw [List.replicate_succ, List.cons_append, firstDedupGo, h]
    simp only [if_true]
    exact ih

theorem fdg_replicate_new {seen : List String} {v : String}
    (h : seen.contains v = false) {n : Nat} (hn : 1 ≤ n)
    (rest : List String) :
    firstDedupGo seen (List.replicate n v ++ rest) =
      v :: firstDedupGo (v :: seen) rest := by
  cases n with
  | zero => exact absurd hn (by simp)
  | succ m =>
    rw [List.replicate_succ, List.cons_append, firstDedupGo, h]
    simp only [Bool.false_eq_true, if_false]
    rw [fdg_replicate_skip (by simp) m rest]

/-- Writing a list of files in order. -/
def writeAll (fs : FS) (l : List (Fpath × FileData)) : FS :=
  l.foldl (fun acc e => acc.write e.1 e.2) fs

theorem write_fresh {fs : FS} {p : Fpath} (d : FileData)
    (h : ∀ q ∈ fs.map Prod.fst, q ≠ p) : fs.write p d = fs ++ [(p, d)] := by
  induction fs with
  | nil => rfl
  | cons e fs ih =>
    have hb : (e.1 == p) = false :=
      beq_eq_false_iff_ne.mpr (h e.1 (List.mem_cons_self _ _))
    rw [FS.write, hb]
    simp only [Bool.false_eq_true, if_false, List.cons_append,
      List.cons.injEq, true_and]
    exact ih fun q hq => h q (by simp [hq])

theorem writeAll_append (fs : FS) (l1 l2 : List (Fpath × FileData)) :
    writeAll fs (l1 ++ l2) = writeAll (writeAll fs l1) l2 :=
  List.foldl_append _ _ _ _

theorem writeAll_flat {l : List (Fpath × FileData)} : ∀ {fs : FS},
    ((fs ++ l).map Prod.fst).Nodup → writeAll fs l = fs ++ l := by
  induction l with
  | nil => intro fs _; simp [writeAll]
  | cons e l ih =>
    intro fs h
    have hfresh : ∀ q ∈ fs.map Prod.fst, q ≠ e.1 := by
      intro q hq hqe
      have hd := List.disjoint_of_nodup_append (by
        rw [← List.map_append]; exact h)
      exact hd hq (by rw [hqe]; exact List.mem_cons_self _ _)
    show writeAll (fs.write e.1 e.2) l = fs ++ e :: l
    rw [write_fresh e.2 hfresh]
    rw [ih (by
      have hx : (fs ++ [e]) ++ l = fs ++ e :: l := by simp
      rw [hx]; exact h)]
    simp

theorem saveArticleFs_eq_writeAll (fs : FS) (secPath : Fpath) (a : Article) :
    saveArticleFs fs secPath a = writeAll fs (articleFiles secPath a) := rfl

theorem foldl_saveArticle (p : Fpath) (arts : List Article) : ∀ fs2 : FS,
    arts.foldl (fun acc a => saveArticleFs acc p a) fs2 =
      writeAll fs2 (arts.flatMap (articleFiles p)) := by
  induction arts with
  | nil => intro _; rfl
  | cons a arts ih =>
    intro fs2
    rw [List.flatMap_cons, writeAll_append]
    show arts.foldl (fun acc a => saveArticleFs acc p a)
      (saveArticleFs fs2 p a) = _
    exact ih _

theorem saveSectionFs_eq_writeAll (fs : FS) (catPath : Fpath) (s : Section) :
    saveSectionFs fs catPath s = writeAll fs (sectionFiles catPath s) :=
  foldl_saveArticle (catPath ++ [s.filename]) s.articles
    ((fs.saveJson (groupMetaPath (catPath ++ [s.filename])) s.meta).saveJson
      (groupContentPath (catPath ++ [s.filename]))
      (groupContentObj s.name s.description))

theorem foldl_saveSection (catPath : Fpath) (secs : List Section) : ∀ fs2 : FS,
    secs.foldl (fun acc s => saveSectionFs acc catPath s) fs2 =
      writeAll fs2 (secs.flatMap (sectionFiles catPath)) := by
  induction secs with
  | nil => intro _; rfl
  | cons s secs ih =>
    intro fs2
    rw [List.flatMap_cons, writeAll_append, ← saveSectionFs_eq_writeAll]
    show secs.foldl (fun acc s => saveSectionFs acc catPath s)
      (saveSectionFs fs2 catPath s) = _
    exact ih _

theorem saveCategoryFs_eq_writeAll (fs : FS) (c : Category) :
    saveCategoryFs fs c = writeAll fs (categoryFiles c) :=
  foldl_saveSection [c.filename] c.sections
    ((fs.saveJson (groupMetaPath [c.filename]) c.meta).saveJson
      (groupContentPath [c.filename])
      (groupContentObj c.name c.description))

theorem saverSave_eq_writeAll (cats : List Category) : ∀ fs : FS,
    saverSave fs cats = writeAll fs (treeFiles cats) := by
  induction cats with
  | nil => intro _; rfl
  | cons c cats ih =>
    intro fs
    show saverSave (saveCategoryFs fs c) cats = _
    rw [ih, show treeFiles (c :: cats) = categoryFiles c ++ treeFiles cats
      from rfl, writeAll_append, ← saveCategoryFs_eq_writeAll]

theorem saverSave_flat {cats : List Category}
    (h : ((treeFiles cats).map Prod.fst).Nodup) :
    saverSave [] cats = treeFiles cats := by
  rw [saverSave_eq_writeAll]
  rw [writeAll_flat (by simpa using h)]
  simp

/-! ### Article file basenames

The basenames `.article_<f>.meta`, `<f>.json` and `<f>.mkdown` are told apart
by the text after their last dot, recovered by `splitLastDot`. -/

theorem sld_meta (f : String) :
    splitLastDot ((".article_" ++ f ++ ".meta").data) =
      some (("." ++ ("article_" ++ f)).data, "meta".data) := by
  rw [article_meta_name_eq f, String.data_append, String.data_append,
    List.append_assoc]
  exact splitLastDot_append (by decide)

theorem sld_json (f : String) :
    splitLastDot ((f ++ ".json").data) = some (f.data, "json".data) := by
  rw [json_ext_eq f, String.data_append, String.data_append,
    List.append_assoc]
  exact splitLastDot_append (by decide)

theorem sld_mk (f : String) :
    splitLastDot ((f ++ ".mkdown").data) = some (f.data, "mkdown".data) := by
  rw [mkdown_ext_eq f, String.data_append, String.data_append,
    List.append_assoc]
  exact splitLastDot_append (by decide)

theorem metaBase_inj {f g : String}
    (h : ".article_" ++ f ++ ".meta" = ".article_" ++ g ++ ".meta") : f = g
    := by
  have h1 := sld_meta f
  rw [h, sld_meta g] at h1
  simp only [Option.some.injEq, Prod.mk.injEq, and_true] at h1
  rw [String.data_append, String.data_append, String.data_append,
    String.data_append] at h1
  exact String.ext
    (List.append_cancel_left (List.append_cancel_left h1.symm))

theorem jsonBase_inj {f g : String} (h : f ++ ".json" = g ++ ".json") :
    f = g := by
  have h1 := sld_json f
  rw [h, sld_json g] at h1
  simp only [Option.some.injEq, Prod.mk.injEq, and_true] at h1
  exact String.ext h1.symm

theorem mkBase_inj {f g : String} (h : f ++ ".mkdown" = g ++ ".mkdown") :
    f = g := by
  have h1 := sld_mk f
  rw [h, sld_mk g] at h1
  simp only [Option.some.injEq, Prod.mk.injEq, and_true] at h1
  exact String.ext h1.symm

theorem metaBase_ne_json (f g : String) :
    ".article_" ++ f ++ ".meta" ≠ g ++ ".json" := by
  intro h
  have h1 := sld_meta f
  rw [h, sld_json g] at h1
  simp only [Option.some.injEq, Prod.mk.injEq] at h1
  exact absurd h1.2 (by decide)

theorem metaBase_ne_mk (f g : String) :
    ".article_" ++ f ++ ".meta" ≠ g ++ ".mkdown" := by
  intro h
  have h1 := sld_meta f
  rw [h, sld_mk g] at h1
  simp only [Option.some.injEq, Prod.mk.injEq] at h1
  exact absurd h1.2 (by decide)

theorem jsonBase_ne_mk (f g : String) : f ++ ".json" ≠ g ++ ".mkdown" := by
  intro h
  have h1 := sld_json f
  rw [h, sld_mk g] at h1
  simp only [Option.some.injEq, Prod.mk.injEq] at h1
  exact absurd h1.2 (by decide)

theorem path_snoc_inj {p : Fpath} {a b : String} (h : p ++ [a] = p ++ [b]) :
    a = b := by
  have h1 := List.append_cancel_left h
  injection h1

theorem slug_head_not_dot {f : String} (h : SlugName f) :
    ∃ c t, f.data = c :: t ∧ (c == '.') = false := by
  cases hd : f.data with
  | nil => exact absurd hd h.1
  | cons c t =>
    exact ⟨c, t, rfl, slugOutChar_ne_dot2 (h.chars c (by rw [hd]; simp))⟩

theorem slug_ne_of_dot_mem {f s : String} (h : SlugName f)
    (hs : ('.' : Char) ∈ s.data) : f ≠ s := by
  intro he
  have hc := h.chars '.' (by rw [he]; exact hs)
  exact absurd hc (by decide)

theorem slug_ne_groupMeta {f : String} (h : SlugName f) : f ≠ ".group.meta" :=
  slug_ne_of_dot_mem h (by decide)

theorem slug_ne_groupContent {f : String} (h : SlugName f) :
    f ≠ "__group__.json" :=
  slug_ne_of_dot_mem h (by decide)

theorem endsWith_meta_mk (f : String) :
    strEndsWith (".article_" ++ f ++ ".meta") ".mkdown" = false := by
  unfold strEndsWith List.isSuffixOf
  rw [String.data_append, String.data_append, List.reverse_append]
  rfl

theorem endsWith_json_mk (f : String) :
    strEndsWith (f ++ ".json") ".mkdown" = false := by
  unfold strEndsWith List.isSuffixOf
  rw [String.data_append, List.reverse_append]
  rfl

theorem endsWith_mk_mk (f : String) :
    strEndsWith (f ++ ".mkdown") ".mkdown" = true := by
  unfold strEndsWith List.isSuffixOf
  rw [String.data_append, List.reverse_append,
    List.isPrefixOf_iff_prefix]
  exact List.prefix_append _ _

theorem stem_mk {f : String} (h : SlugName f) :
    (splitExt (f ++ ".mkdown")).1 = f := by
  rw [mkdown_ext_eq, splitExt_plain (slug_head_not_dot h) (by decide)]

/-! ### Distinctness of the saved paths -/

theorem nodup_flatMap_inj {α β : Type} {l : List α} {g : α → List β}
    (key : α → String)
    (hnd : (l.map key).Nodup)
    (hg : ∀ x ∈ l, (g x).Nodup)
    (hdisj : ∀ x ∈ l, ∀ y ∈ l, key x ≠ key y → ∀ p ∈ g x, p ∉ g y) :
    (l.flatMap g).Nodup := by
  induction l with
  | nil => simp
  | cons x l ih =>
    rw [List.flatMap_cons]
    have hnd' : key x ∉ l.map key ∧ (l.map key).Nodup := by
      rw [List.map_cons, List.nodup_cons] at hnd
      exact hnd
    refine List.Nodup.append (hg x (List.mem_cons_self _ _))
      (ih hnd'.2 (fun y hy => hg y (by simp [hy]))
        (fun y hy z hz hne => hdisj y (by simp [hy]) z (by simp [hz]) hne))
      ?_
    intro p hpx hpl
    rw [List.mem_flatMap] at hpl
    obtain ⟨y, hy, hpy⟩ := hpl
    have hkne : key x ≠ key y := by
      intro hk
      exact hnd'.1 (hk ▸ List.mem_map_of_mem key hy)
    exact hdisj x (List.mem_cons_self _ _) y (by simp [hy]) hkne p hpx hpy

theorem articleFiles_paths (secPath : Fpath) (a : Article) :
    (articleFiles secPath a).map Prod.fst =
      [articleMetaPath secPath a.filename,
        articleContentPath secPath a.filename,
        articleBodyPath secPath a.filename] := rfl

theorem articleFiles_paths_nodup (secPath : Fpath) (a : Article) :
    ((articleFiles secPath a).map Prod.fst).Nodup := by
  rw [articleFiles_paths]
  refine List.nodup_cons.mpr ⟨?_, List.nodup_cons.mpr
    ⟨?_, List.nodup_singleton _⟩⟩
  · intro hmem
    rcases List.mem_cons.mp hmem with h | h
    · exact metaBase_ne_json a.filename a.filename (path_snoc_inj h)
    · have h2 : articleMetaPath secPath a.filename =
        articleBodyPath secPath a.filename := by simpa using h
      exact metaBase_ne_mk a.filename a.filename (path_snoc_inj h2)
  · intro hmem
    have h2 : articleContentPath secPath a.filename =
        articleBodyPath secPath a.filename := by simpa using hmem
    exact jsonBase_ne_mk a.filename a.filename (path_snoc_inj h2)

theorem articles_flat_paths_nodup {arts : List Article} (secPath : Fpath)
    (hnd : (arts.map Article.filename).Nodup) :
    (arts.flatMap
      (fun a => (articleFiles secPath a).map Prod.fst)).Nodup := by
  refine nodup_flatMap_inj Article.filename hnd
    (fun a _ => articleFiles_paths_nodup secPath a) ?_
  intro a _ b _ hne p hpa hpb
  rw [articleFiles_paths] at hpa hpb
  simp only [List.mem_cons, List.not_mem_nil, or_false] at hpa hpb
  rcases hpa with hpa | hpa | hpa <;> rcases hpb with hpb | hpb | hpb <;>
    rw [hpa] at hpb
  · exact hne (metaBase_inj (path_snoc_inj hpb))
  · exact metaBase_ne_json a.filename b.filename (path_snoc_inj hpb)
  · exact metaBase_ne_mk a.filename b.filename (path_snoc_inj hpb)
  · exact metaBase_ne_json b.filename a.filename (path_snoc_inj hpb.symm)
  · exact hne (jsonBase_inj (path_snoc_inj hpb))
  · exact jsonBase_ne_mk a.filename b.filename (path_snoc_inj hpb)
  · exact metaBase_ne_mk b.filename a.filename (path_snoc_inj hpb.symm)
  · exact jsonBase_ne_mk b.filename a.filename (path_snoc_inj hpb.symm)
  · exact hne (mkBase_inj (path_snoc_inj hpb))

theorem sectionFiles_paths (catPath : Fpath) (s : Section) :
    (sectionFiles catPath s).map Prod.fst =
      groupMetaPath (catPath ++ [s.filename]) ::
        groupContentPath (catPath ++ [s.filename]) ::
        s.articles.flatMap
          (fun a => (articleFiles (catPath ++ [s.filename]) a).map Prod.fst)
    := by
  rw [sectionFiles, List.map_cons, List.map_cons, List.map_flatMap]

theorem group_path_ne_article_path {sp : Fpath} {gb b : String}
    (hne : gb ≠ defaultLocale) :
    sp ++ [gb] ≠ articleDirOf sp ++ [b] := by
  intro h
  rw [articleDirOf, List.append_assoc] at h
  have h1 := List.append_cancel_left h
  injection h1 with h2 _
  exact hne h2

theorem sectionFiles_paths_nodup {catPath : Fpath} {s : Section}
    (h : SectionWF s) :
    ((sectionFiles catPath s).map Prod.fst).Nodup := by
  rw [sectionFiles_paths]
  refine List.nodup_cons.mpr ⟨?_, List.nodup_cons.mpr
    ⟨?_, articles_flat_paths_nodup _ h.2.1⟩⟩
  · intro hmem
    rcases List.mem_cons.mp hmem with hx | hx
    · exact absurd (path_snoc_inj hx)
        (by decide : (".group.meta" : String) ≠ "__group__.json")
    · rw [List.mem_flatMap] at hx
      obtain ⟨a, _, hpa⟩ := hx
      rw [articleFiles_paths] at hpa
      simp only [List.mem_cons, List.not_mem_nil, or_false] at hpa
      rcases hpa with hpa | hpa | hpa <;>
        exact group_path_ne_article_path (by decide) hpa
  · intro hmem
    rw [List.mem_flatMap] at hmem
    obtain ⟨a, _, hpa⟩ := hmem
    rw [articleFiles_paths] at hpa
    simp only [List.mem_cons, List.not_mem_nil, or_false] at hpa
    rcases hpa with hpa | hpa | hpa <;>
      exact group_path_ne_article_path (by decide) hpa

theorem sectionFiles_path_shape {catPath : Fpath} {s : Section} {p : Fpath}
    (hp : p ∈ (sectionFiles catPath s).map Prod.fst) :
    ∃ x rs, p = catPath ++ s.filename :: x :: rs := by
  rw [sectionFiles_paths] at hp
  rcases List.mem_cons.mp hp with hx | hp
  · exact ⟨".group.meta", [], by
      rw [hx, groupMetaPath, List.append_assoc]; rfl⟩
  rcases List.mem_cons.mp hp with hx | hp
  · exact ⟨"__group__.json", [], by
      rw [hx, groupContentPath, List.append_assoc]; rfl⟩
  rw [List.mem_flatMap] at hp
  obtain ⟨a, _, hpa⟩ := hp
  rw [articleFiles_paths] at hpa
  simp only [List.mem_cons, List.not_mem_nil, or_false] at hpa
  have hdir : ∀ b : String, articleDirOf (catPath ++ [s.filename]) ++ [b] =
      catPath ++ s.filename :: defaultLocale :: [b] := by
    intro b
    rw [articleDirOf, List.append_assoc, List.append_assoc]
    rfl
  rcases hpa with hpa | hpa | hpa
  · exact ⟨defaultLocale, [".article_" ++ a.filename ++ ".meta"],
      by rw [hpa]; exact hdir _⟩
  · exact ⟨defaultLocale, [a.filename ++ ".json"], by rw [hpa]; exact hdir _⟩
  · exact ⟨defaultLocale, [a.filename ++ ".mkdown"], by rw [hpa]; exact hdir _⟩

theorem categoryFiles_paths (c : Category) :
    (categoryFiles c).map Prod.fst =
      groupMetaPath [c.filename] :: groupContentPath [c.filename] ::
        c.sections.flatMap
          (fun s => (sectionFiles [c.filename] s).map Prod.fst) := by
  rw [categoryFiles, List.map_cons, List.map_cons, List.map_flatMap]

theorem categoryFiles_paths_nodup {c : Category} (h : CategoryWF c) :
    ((categoryFiles c).map Prod.fst).Nodup := by
  rw [categoryFiles_paths]
  have hsec : ∀ gb : String, ∀ p, p ∈ c.sections.flatMap
      (fun s => (sectionFiles [c.filename] s).map Prod.fst) →
      [c.filename] ++ [gb] ≠ p := by
    intro gb p hp
    rw [List.mem_flatMap] at hp
    obtain ⟨s, hs, hps⟩ := hp
    obtain ⟨x, rs, hshape⟩ := sectionFiles_path_shape hps
    rw [hshape]
    intro hx
    have h1 : [gb] = s.filename :: x :: rs := List.append_cancel_left hx
    injection h1 with _ h2
    exact List.noConfusion h2
  refine List.nodup_cons.mpr ⟨?_, List.nodup_cons.mpr ⟨?_, ?_⟩⟩
  · intro hmem
    rcases List.mem_cons.mp hmem with hx | hx
    · exact absurd (path_snoc_inj hx)
        (by decide : (".group.meta" : String) ≠ "__group__.json")
    · exact hsec ".group.meta" _ hx rfl
  · intro hmem
    exact hsec "__group__.json" _ hmem rfl
  · refine nodup_flatMap_inj Section.filename h.2.1
      (fun s hs => sectionFiles_paths_nodup (h.2.2 s hs)) ?_
    intro s1 _ s2 _ hne p hp1 hp2
    obtain ⟨x1, rs1, he1⟩ := sectionFiles_path_shape hp1
    obtain ⟨x2, rs2, he2⟩ := sectionFiles_path_shape hp2
    rw [he1] at he2
    have h1 := List.append_cancel_left he2
    injection h1 with h2 _
    exact hne h2

theorem categoryFiles_path_shape {c : Category} {p : Fpath}
    (hp : p ∈ (categoryFiles c).map Prod.fst) :
    ∃ x rs, p = c.filename :: x :: rs := by
  rw [categoryFiles_paths] at hp
  rcases List.mem_cons.mp hp with hx | hp
  · exact ⟨".group.meta", [], by rw [hx]; rfl⟩
  rcases List.mem_cons.mp hp with hx | hp
  · exact ⟨"__group__.json", [], by rw [hx]; rfl⟩
  rw [List.mem_flatMap] at hp
  obtain ⟨s, _, hps⟩ := hp
  obtain ⟨x, rs, hshape⟩ := sectionFiles_path_shape hps
  exact ⟨s.filename, x :: rs, by rw [hshape]; rfl⟩

theorem treeFiles_paths_nodup {cats : List Category} (h : TreeWF cats) :
    ((treeFiles cats).map Prod.fst).Nodup := by
  rw [treeFiles, List.map_flatMap]
  refine nodup_flatMap_inj Category.filename h.1
    (fun c hc => categoryFiles_paths_nodup (h.2 c hc)) ?_
  intro c1 _ c2 _ hne p hp1 hp2
  obtain ⟨x1, rs1, he1⟩ := categoryFiles_path_shape hp1
  obtain ⟨x2, rs2, he2⟩ := categoryFiles_path_shape hp2
  rw [he1] at he2
  injection he2 with h2 _
  exact hne h2

/-! ### Directory-listing deduplication -/

theorem contains_cons_false {y x : String} {seen : List String}
    (h1 : y ≠ x) (h2 : seen.contains y = false) :
    (x :: seen).contains y = false := by
  rw [List.contains_cons, beq_eq_false_iff_ne.mpr h1, h2]
  rfl

theorem firstDedupGo_eq_self {l : List String} : ∀ {seen : List String},
    l.Nodup → (∀ x ∈ l, seen.contains x = false) →
    firstDedupGo seen l = l := by
  induction l with
  | nil => intro _ _ _; rfl
  | cons x l ih =>
    intro seen hnd hs
    rw [firstDedupGo, hs x (by simp)]
    simp only [Bool.false_eq_true, if_false, List.cons.injEq, true_and]
    refine ih (List.nodup_cons.mp hnd).2 ?_
    intro y hy
    exact contains_cons_false
      (fun he => (List.nodup_cons.mp hnd).1 (he ▸ hy))
      (hs y (by simp [hy]))

theorem firstDedup_eq_self {l : List String} (hnd : l.Nodup) :
    firstDedup l = l :=
  firstDedupGo_eq_self hnd (fun _ _ => rfl)

theorem firstDedupGo_all_seen {l seen : List String}
    (h : ∀ x ∈ l, seen.contains x = true) : firstDedupGo seen l = [] := by
  induction l with
  | nil => rfl
  | cons x l ih =>
    rw [firstDedupGo, h x (by simp)]
    simp only [if_true]
    exact ih fun y hy => h y (by simp [hy])

theorem firstDedup_const {l : List String} {v : String} (hne : l ≠ [])
    (h : ∀ x ∈ l, x = v) : firstDedup l = [v] := by
  cases l with
  | nil => exact absurd rfl hne
  | cons x l =>
    have hx : x = v := h x (by simp)
    subst hx
    show firstDedupGo [] (x :: l) = [x]
    rw [firstDedupGo]
    have hgo : firstDedupGo [x] l = [] := by
      refine firstDedupGo_all_seen ?_
      intro y hy
      rw [h y (by simp [hy]), List.contains_cons, beq_self_eq_true]
      rfl
    rw [hgo]
    rfl

theorem firstDedupGo_blocks {α : Type} {l : List α} {g : α → String}
    {k : α → Nat} : ∀ {seen : List String},
    (∀ x ∈ l, 1 ≤ k x) → (l.map g).Nodup →
    (∀ x ∈ l, seen.contains (g x) = false) →
    firstDedupGo seen (l.flatMap fun x => List.replicate (k x) (g x)) =
      l.map g := by
  induction l with
  | nil => intro _ _ _ _; rfl
  | cons x l ih =>
    intro seen hk hnd hs
    rw [List.map_cons, List.nodup_cons] at hnd
    rw [List.flatMap_cons,
      fdg_replicate_new (hs x (by simp)) (hk x (by simp))]
    rw [List.map_cons, List.cons.injEq]
    refine ⟨rfl, ?_⟩
    refine ih (fun y hy => hk y (by simp [hy])) hnd.2 ?_
    intro y hy
    exact contains_cons_false
      (fun he => hnd.1 (he ▸ List.mem_map_of_mem g hy))
      (hs y (by simp [hy]))

theorem firstDedup_blocks {α : Type} {l : List α} {g : α → String}
    {k : α → Nat} (hk : ∀ x ∈ l, 1 ≤ k x) (hnd : (l.map g).Nodup) :
    firstDedup (l.flatMap fun x => List.replicate (k x) (g x)) = l.map g :=
  firstDedupGo_blocks hk hnd (fun _ _ => rfl)

/-! ### Evaluation lemmas for the loader's reads -/

theorem pySetMeta_some (o : JObj) : pySetMeta (some o) = o := by
  cases o with
  | nil => rfl
  | cons x xs => rfl

theorem sortByKey_groupContent (n d : String) :
    sortByKey (groupContentObj n d) =
      [("description", JVal.s d), ("name", JVal.s n)] := rfl

theorem sortByKey_articleContent (a : Article) :
    sortByKey (articleContentObj a) = [("name", JVal.s a.name)] := rfl

theorem groupContentTransPath_default (p : Fpath) :
    groupContentTransPath p "" = groupContentPath p := by
  show p ++ ["__group__" ++ "" ++ ".json"] = p ++ ["__group__.json"]
  rw [String.append_empty]
  rfl

theorem bind_congr_some {α β : Type} {x : Option α} {v : α}
    {f : α → Option β} {r : Option β} (hx : x = some v) (hf : f v = r) :
    (x >>= f) = r := by
  rw [hx]
  exact hf

theorem loadArticle_ctx {fs : FS} {sp : Fpath} {a : Article}
    (hWF : ArticleWF a)
    (hm : fs.readJson (articleMetaPath sp a.filename) =
      some (sortByKey a.meta))
    (hc : fs.readJson (articleContentPath sp a.filename) =
      some [("name", JVal.s a.name)])
    (hb : fs.readText (articleBodyPath sp a.filename) = a.body) :
    loadArticle fs sp a.filename =
      some (fs, ⟨a.name, a.body, a.filename, [], sortByKey a.meta⟩) := by
  rw [loadArticle_eq hWF]
  refine bind_congr_some hm ?_
  refine bind_congr_some hc ?_
  rw [hb, pySetMeta_some]
  rfl

theorem groupTranslations_ctx {fs : FS} {gp : Fpath} {n d : String}
    (hfiles : fs.childFiles gp = [".group.meta", "__group__.json"])
    (hcontent : fs.readJson (groupContentPath gp) =
      some [("description", JVal.s d), ("name", JVal.s n)]) :
    loadGroupTranslationsAll fs gp = some [⟨defaultLocale, n, d⟩] := by
  unfold loadGroupTranslationsAll groupLocales
  rw [hfiles]
  show loadGroupTranslations fs gp ("" :: []) = _
  rw [loadGroupTranslations, groupContentTransPath_default]
  refine bind_congr_some hcontent ?_
  rfl

theorem articleTranslations_ctx {fs : FS} {sp : Fpath} {a : Article}
    (hdirs : fs.childDirs sp = [defaultLocale])
    (hcontent : fs.readJson (articleContentPath sp a.filename) =
      some [("name", JVal.s a.name)])
    (hbody : fs.readText (articleBodyPath sp a.filename) = a.body) :
    loadArticleTranslationsAll fs sp a.filename =
      some [⟨defaultLocale, a.name, a.body⟩] := by
  unfold loadArticleTranslationsAll
  rw [hdirs, loadArticleTranslations]
  have hp1 : sp ++ [defaultLocale, a.filename ++ ".json"] =
      articleContentPath sp a.filename := by
    rw [articleContentPath, articleDirOf, List.append_assoc]
    rfl
  have hp2 : sp ++ [defaultLocale, a.filename ++ ".mkdown"] =
      articleBodyPath sp a.filename := by
    rw [articleBodyPath, articleDirOf, List.append_assoc]
    rfl
  rw [hp1, hp2, hcontent, hbody]
  rfl

theorem loadSection_ctx {fs : FS} {catPath : Fpath} {s : Section}
    (hslug : SlugName s.filename)
    (hm : fs.readJson (groupMetaPath (catPath ++ [s.filename])) =
      some (sortByKey s.meta))
    (hc : fs.readJson (groupContentPath (catPath ++ [s.filename])) =
      some [("description", JVal.s s.description), ("name", JVal.s s.name)]) :
    loadSection fs catPath s.filename = some (fs,
      ⟨s.name, s.description, s.filename, [], [], sortByKey s.meta⟩) := by
  rw [loadSection_eq hslug]
  refine bind_congr_some hm ?_
  refine bind_congr_some hc ?_
  rw [pySetMeta_some]
  rfl

theorem loadCategory_ctx {fs : FS} {c : Category}
    (hslug : SlugName c.filename)
    (hm : fs.readJson (groupMetaPath [c.filename]) =
      some (sortByKey c.meta))
    (hc : fs.readJson (groupContentPath [c.filename]) =
      some [("description", JVal.s c.description), ("name", JVal.s c.name)]) :
    loadCategory fs c.filename = some (fs,
      ⟨c.name, c.description, c.filename, [], [], sortByKey c.meta⟩) := by
  rw [loadCategory_eq hslug]
  refine bind_congr_some hm ?_
  refine bind_congr_some hc ?_
  rw [pySetMeta_some]
  rfl

/-- The facts about the surrounding tree that drive the loader on one
section's directory: its two group files hold the saved JSON, the directory
lists exactly those two files, the only (non-empty) locale directory is the
default one, and the default-locale directory lists each article's three
files with the saved payloads. -/
structure SectionCtx (fs : FS) (catPath : Fpath) (s : Section) : Prop where
  metaJ : fs.readJson (groupMetaPath (catPath ++ [s.filename])) =
    some (sortByKey s.meta)
  contentJ : fs.readJson (groupContentPath (catPath ++ [s.filename])) =
    some [("description", JVal.s s.description), ("name", JVal.s s.name)]
  files : fs.childFiles (catPath ++ [s.filename]) =
    [".group.meta", "__group__.json"]
  dirs : fs.childDirs (catPath ++ [s.filename]) =
    if s.articles.isEmpty then [] else [defaultLocale]
  artFiles : fs.childFiles (articleDirOf (catPath ++ [s.filename])) =
    s.articles.flatMap (fun a =>
      [".article_" ++ a.filename ++ ".meta", a.filename ++ ".json",
        a.filename ++ ".mkdown"])
  artMetaJ : ∀ a ∈ s.articles,
    fs.readJson (articleMetaPath (catPath ++ [s.filename]) a.filename) =
      some (sortByKey a.meta)
  artContentJ : ∀ a ∈ s.articles,
    fs.readJson (articleContentPath (catPath ++ [s.filename]) a.filename) =
      some [("name", JVal.s a.name)]
  artBody : ∀ a ∈ s.articles,
    fs.readText (articleBodyPath (catPath ++ [s.filename]) a.filename) =
      a.body

/-- The corresponding facts for one category's directory. -/
structure CategoryCtx (fs : FS) (c : Category) : Prop where
  metaJ : fs.readJson (groupMetaPath [c.filename]) = some (sortByKey c.meta)
  contentJ : fs.readJson (groupContentPath [c.filename]) =
    some [("description", JVal.s c.description), ("name", JVal.s c.name)]
  files : fs.childFiles [c.filename] = [".group.meta", "__group__.json"]
  dirs : fs.childDirs [c.filename] = c.sections.map Section.filename
  secCtx : ∀ s ∈ c.sections, SectionCtx fs [c.filename] s

theorem filterArticleNames_append (l1 l2 : List String) :
    filterArticleNames (l1 ++ l2) =
      filterArticleNames l1 ++ filterArticleNames l2 := by
  unfold filterArticleNames
  rw [List.filter_append, List.map_append]

theorem filterArticleNames_block {a : Article} (hWF : ArticleWF a) :
    filterArticleNames
      [".article_" ++ a.filename ++ ".meta", a.filename ++ ".json",
        a.filename ++ ".mkdown"] = [a.filename] := by
  unfold filterArticleNames
  simp only [List.filter_cons, List.filter_nil, endsWith_meta_mk,
    endsWith_json_mk, endsWith_mk_mk, Bool.false_eq_true, if_false, if_true]
  show [(splitExt (a.filename ++ ".mkdown")).1] = [a.filename]
  rw [stem_mk hWF]

theorem filterArticleNames_blocks {arts : List Article}
    (hWF : ∀ a ∈ arts, ArticleWF a) :
    filterArticleNames (arts.flatMap (fun a =>
      [".article_" ++ a.filename ++ ".meta", a.filename ++ ".json",
        a.filename ++ ".mkdown"])) = arts.map Article.filename := by
  induction arts with
  | nil => rfl
  | cons a arts ih =>
    rw [List.flatMap_cons, filterArticleNames_append,
      filterArticleNames_block (hWF a (List.mem_cons_self _ _)),
      ih (fun x hx => hWF x (by simp [hx])), List.map_cons]
    rfl

theorem fillArticlesAux_ctx {fs : FS} {sp : Fpath} : ∀ {arts : List Article},
    (∀ a ∈ arts, ArticleWF a) →
    (∀ a ∈ arts, loadArticle fs sp a.filename =
      some (fs, ⟨a.name, a.body, a.filename, [], sortByKey a.meta⟩)) →
    (∀ a ∈ arts, loadArticleTranslationsAll fs sp a.filename =
      some [⟨defaultLocale, a.name, a.body⟩]) →
    fillArticlesAux sp fs (arts.map Article.filename) =
      some (fs, arts.map canonArticle) := by
  intro arts
  induction arts with
  | nil => intro _ _ _; rfl
  | cons a arts ih =>
    intro hWF hload htrans
    rw [List.map_cons, fillArticlesAux]
    refine bind_congr_some (hload a (List.mem_cons_self _ _)) ?_
    refine bind_congr_some (htrans a (List.mem_cons_self _ _)) ?_
    refine bind_congr_some (ih (fun x hx => hWF x (by simp [hx]))
      (fun x hx => hload x (by simp [hx]))
      (fun x hx => htrans x (by simp [hx]))) ?_
    rfl

theorem fillArticles_ctx {fs : FS} {catPath : Fpath} {s : Section}
    (hWF : SectionWF s) (hctx : SectionCtx fs catPath s) :
    fillArticles fs (catPath ++ [s.filename]) =
      some (fs, s.articles.map canonArticle) := by
  unfold fillArticles
  rw [hctx.artFiles, filterArticleNames_blocks hWF.2.2]
  refine fillArticlesAux_ctx hWF.2.2 ?_ ?_
  · intro a ha
    exact loadArticle_ctx (hWF.2.2 a ha) (hctx.artMetaJ a ha)
      (hctx.artContentJ a ha) (hctx.artBody a ha)
  · intro a ha
    refine articleTranslations_ctx ?_ (hctx.artContentJ a ha)
      (hctx.artBody a ha)
    rw [hctx.dirs]
    cases harts : s.articles with
    | nil => rw [harts] at ha; exact absurd ha (List.not_mem_nil a)
    | cons x xs => rfl

theorem fillSectionsAux_ctx {fs : FS} {catPath : Fpath} :
    ∀ {secs : List Section},
    (∀ s ∈ secs, SectionWF s) → (∀ s ∈ secs, SectionCtx fs catPath s) →
    fillSectionsAux catPath fs (secs.map Section.filename) =
      some (fs, secs.map canonSection) := by
  intro secs
  induction secs with
  | nil => intro _ _; rfl
  | cons s secs ih =>
    intro hWF hctx
    have hc := hctx s (List.mem_cons_self _ _)
    have hw := hWF s (List.mem_cons_self _ _)
    rw [List.map_cons, fillSectionsAux]
    refine bind_congr_some (loadSection_ctx hw.1 hc.metaJ hc.contentJ) ?_
    show (loadGroupTranslationsAll fs (catPath ++ [s.filename])).bind _ = _
    refine bind_congr_some (groupTranslations_ctx hc.files hc.contentJ) ?_
    show (fillArticles fs (catPath ++ [s.filename])).bind _ = _
    refine bind_congr_some (fillArticles_ctx hw hc) ?_
    show (fillSectionsAux catPath fs (secs.map Section.filename)).bind _ = _
    refine bind_congr_some (ih (fun x hx => hWF x (by simp [hx]))
      (fun x hx => hctx x (by simp [hx]))) ?_
    rfl

theorem fillCategory_ctx {fs : FS} {c : Category}
    (hWF : CategoryWF c) (hctx : CategoryCtx fs c) :
    fillCategory fs c.filename = some (fs, canonCategory c) := by
  unfold fillCategory
  refine bind_congr_some (loadCategory_ctx hWF.1 hctx.metaJ hctx.contentJ) ?_
  refine bind_congr_some (groupTranslations_ctx hctx.files hctx.contentJ) ?_
  show (fillSectionsAux [c.filename] fs (fs.childDirs [c.filename])).bind _
    = _
  rw [hctx.dirs]
  refine bind_congr_some (fillSectionsAux_ctx hWF.2.2 hctx.secCtx) ?_
  rfl

theorem loadRootAux_ctx {fs : FS} : ∀ {cats : List Category},
    (∀ c ∈ cats, CategoryWF c) → (∀ c ∈ cats, CategoryCtx fs c) →
    loadRootAux fs (cats.map Category.filename) =
      some (fs, cats.map canonCategory) := by
  intro cats
  induction cats with
  | nil => intro _ _; rfl
  | cons c cats ih =>
    intro hWF hctx
    rw [List.map_cons, loadRootAux]
    refine bind_congr_some (fillCategory_ctx (hWF c (List.mem_cons_self _ _))
      (hctx c (List.mem_cons_self _ _))) ?_
    refine bind_congr_some (ih (fun x hx => hWF x (by simp [hx]))
      (fun x hx => hctx x (by simp [hx]))) ?_
    rfl

/-! ### Evaluating the listings on the saved tree -/

theorem stripPfx_append_both (p : Fpath) (r1 r2 : Fpath) :
    stripPfx (p ++ r1) (p ++ r2) = stripPfx r1 r2 := by
  induction p with
  | nil => rfl
  | cons a p ih =>
    show stripPfx (a :: (p ++ r1)) (a :: (p ++ r2)) = _
    rw [stripPfx]
    simp only [beq_self_eq_true, if_true]
    exact ih

theorem stripPfx_none_head {a b : String} {as bs : Fpath} (h : b ≠ a) :
    stripPfx (a :: as) (b :: bs) = none := by
  rw [stripPfx, beq_eq_false_iff_ne.mpr (Ne.symm h)]
  simp only [Bool.false_eq_true, if_false]

theorem fileEntryOf_eq_some_at {p : Fpath} {e : Fpath × FileData} {b : String}
    (h : e.1 = p ++ [b]) : fileEntryOf p e = some b := by
  unfold fileEntryOf
  rw [h, stripPfx_append]

theorem dirEntryOf_eq_none_at {p : Fpath} {e : Fpath × FileData} {b : String}
    (h : e.1 = p ++ [b]) : dirEntryOf p e = none := by
  unfold dirEntryOf
  rw [h, stripPfx_append]

theorem fileEntryOf_eq_none_deep {p : Fpath} {e : Fpath × FileData}
    {x y : String} {rs : Fpath} (h : e.1 = p ++ x :: y :: rs) :
    fileEntryOf p e = none := by
  unfold fileEntryOf
  rw [h, stripPfx_append]

theorem dirEntryOf_eq_some_deep {p : Fpath} {e : Fpath × FileData}
    {x y : String} {rs : Fpath} (h : e.1 = p ++ x :: y :: rs) :
    dirEntryOf p e = some x := by
  unfold dirEntryOf
  rw [h, stripPfx_append]

theorem fileEntryOf_eq_none_strip {p : Fpath} {e : Fpath × FileData}
    (h : stripPfx p e.1 = none) : fileEntryOf p e = none := by
  unfold fileEntryOf
  rw [h]

theorem dirEntryOf_eq_none_strip {p : Fpath} {e : Fpath × FileData}
    (h : stripPfx p e.1 = none) : dirEntryOf p e = none := by
  unfold dirEntryOf
  rw [h]

theorem read?_of_mem_nodup {fs : FS} {p : Fpath} {d : FileData}
    (hnd : (fs.map Prod.fst).Nodup) (hmem : (p, d) ∈ fs) :
    fs.read? p = some d := by
  induction fs with
  | nil => cases hmem
  | cons e fs ih =>
    rw [List.map_cons, List.nodup_cons] at hnd
    rcases List.mem_cons.mp hmem with he | hmem2
    · rw [← he]
      show (if (p == p) then some d else FS.read? fs p) = some d
      rw [beq_self_eq_true]
      rfl
    · have hne : e.1 ≠ p := by
        intro heq
        exact hnd.1 (heq ▸ List.mem_map_of_mem Prod.fst hmem2)
      show (if (e.1 == p) then some e.2 else FS.read? fs p) = some d
      rw [beq_eq_false_iff_ne.mpr hne]
      exact ih hnd.2 hmem2

theorem readJson_of_read? {fs : FS} {p : Fpath} {o : JObj}
    (h : fs.read? p = some (.jsn o)) : fs.readJson p = some o := by
  unfold FS.readJson
  rw [h]

theorem readText_of_read? {fs : FS} {p : Fpath} {t : String}
    (h : fs.read? p = some (.txt t)) : fs.readText p = t := by
  unfold FS.readText
  rw [h]

theorem flatMap_congr_mem {α β : Type} {l : List α} {f g : α → List β}
    (h : ∀ x ∈ l, f x = g x) : l.flatMap f = l.flatMap g := by
  induction l with
  | nil => rfl
  | cons x l ih =>
    rw [List.flatMap_cons, List.flatMap_cons, h x (List.mem_cons_self _ _),
      ih fun y hy => h y (by simp [hy])]

theorem mem_treeFiles_of_cat {cats : List Category} {c : Category}
    (hc : c ∈ cats) {e : Fpath × FileData} (he : e ∈ categoryFiles c) :
    e ∈ treeFiles cats := by
  rw [treeFiles, List.mem_flatMap]
  exact ⟨c, hc, he⟩

theorem mem_categoryFiles_of_sec {c : Category} {s : Section}
    (hs : s ∈ c.sections) {e : Fpath × FileData}
    (he : e ∈ sectionFiles [c.filename] s) : e ∈ categoryFiles c := by
  rw [categoryFiles]
  exact List.mem_cons_of_mem _ (List.mem_cons_of_mem _
    (List.mem_flatMap.mpr ⟨s, hs, he⟩))

theorem mem_sectionFiles_of_art {catPath : Fpath} {s : Section} {a : Article}
    (ha : a ∈ s.articles) {e : Fpath × FileData}
    (he : e ∈ articleFiles (catPath ++ [s.filename]) a) :
    e ∈ sectionFiles catPath s := by
  rw [sectionFiles]
  exact List.mem_cons_of_mem _ (List.mem_cons_of_mem _
    (List.mem_flatMap.mpr ⟨a, ha, he⟩))

theorem split_of_nodup_key {α : Type} {l : List α} (key : α → String)
    (hnd : (l.map key).Nodup) {x : α} (hx : x ∈ l) :
    ∃ pre post, l = pre ++ x :: post ∧
      (∀ y ∈ pre, key y ≠ key x) ∧ (∀ y ∈ post, key y ≠ key x) := by
  obtain ⟨pre, post, rfl⟩ := List.append_of_mem hx
  rw [List.map_append, List.map_cons] at hnd
  refine ⟨pre, post, rfl, ?_, ?_⟩
  · intro y hy heq
    exact List.disjoint_of_nodup_append hnd
      (List.mem_map_of_mem key hy)
      (by rw [heq]; exact List.mem_cons_self _ _)
  · intro y hy heq
    have h2 := hnd.of_append_right
    rw [List.nodup_cons] at h2
    exact h2.1 (heq ▸ List.mem_map_of_mem key hy)

theorem treeFiles_split (pre post : List Category) (c : Category) :
    treeFiles (pre ++ c :: post) =
      treeFiles pre ++ (categoryFiles c ++ treeFiles post) := by
  rw [treeFiles, List.flatMap_append, List.flatMap_cons]
  rfl

theorem sideCats_filterMap_nil {cats2 : List Category} {cf : String}
    {tgt : Fpath} (hne : ∀ c2 ∈ cats2, c2.filename ≠ cf)
    {fn : Fpath × FileData → Option String}
    (hfn : ∀ e, stripPfx (cf :: tgt) e.1 = none → fn e = none) :
    (treeFiles cats2).filterMap fn = [] := by
  apply filterMap_none_of_away
  intro e he
  rw [treeFiles, List.mem_flatMap] at he
  obtain ⟨c2, hc2, hec⟩ := he
  obtain ⟨x, rs, hp⟩ := categoryFiles_path_shape
    (List.mem_map_of_mem Prod.fst hec)
  apply hfn
  rw [hp]
  exact stripPfx_none_head (hne c2 hc2)

theorem catFiles_filterMap_file (c : Category) :
    (categoryFiles c).filterMap (fileEntryOf [c.filename]) =
      [".group.meta", "__group__.json"] := by
  rw [categoryFiles]
  rw [List.filterMap_cons_some (fileEntryOf_eq_some_at rfl)]
  rw [List.filterMap_cons_some (fileEntryOf_eq_some_at rfl)]
  rw [filterMap_none_of_away ?_]
  intro e he
  rw [List.mem_flatMap] at he
  obtain ⟨s, hs, hes⟩ := he
  obtain ⟨x, rs, hp⟩ := sectionFiles_path_shape
    (List.mem_map_of_mem Prod.fst hes)
  exact fileEntryOf_eq_none_deep hp

theorem catFiles_filterMap_dir (c : Category) :
    (categoryFiles c).filterMap (dirEntryOf [c.filename]) =
      c.sections.flatMap (fun s =>
        List.replicate (sectionFiles [c.filename] s).length s.filename) := by
  rw [categoryFiles]
  rw [List.filterMap_cons_none (dirEntryOf_eq_none_at rfl)]
  rw [List.filterMap_cons_none (dirEntryOf_eq_none_at rfl)]
  rw [List.filterMap_flatMap]
  refine flatMap_congr_mem ?_
  intro s _
  refine filterMap_const_replicate ?_
  intro e he
  obtain ⟨x, rs, hp⟩ := sectionFiles_path_shape
    (List.mem_map_of_mem Prod.fst he)
  exact dirEntryOf_eq_some_deep hp

theorem childFiles_cat {cats : List Category} (hWF : TreeWF cats)
    {c : Category} (hc : c ∈ cats) :
    FS.childFiles (treeFiles cats) [c.filename] =
      [".group.meta", "__group__.json"] := by
  obtain ⟨pre, post, hsplit, hpre, hpost⟩ :=
    split_of_nodup_key Category.filename hWF.1 hc
  unfold FS.childFiles
  rw [hsplit, treeFiles_split, List.filterMap_append, List.filterMap_append]
  rw [sideCats_filterMap_nil hpre
    (fun e he => fileEntryOf_eq_none_strip he)]
  rw [sideCats_filterMap_nil hpost
    (fun e he => fileEntryOf_eq_none_strip he)]
  rw [catFiles_filterMap_file, List.nil_append, List.append_nil]
  rfl

theorem childDirs_cat {cats : List Category} (hWF : TreeWF cats)
    {c : Category} (hc : c ∈ cats) :
    FS.childDirs (treeFiles cats) [c.filename] =
      c.sections.map Section.filename := by
  obtain ⟨pre, post, hsplit, hpre, hpost⟩ :=
    split_of_nodup_key Category.filename hWF.1 hc
  have hcwf := hWF.2 c hc
  unfold FS.childDirs
  rw [hsplit, treeFiles_split, List.filterMap_append, List.filterMap_append]
  rw [sideCats_filterMap_nil hpre
    (fun e he => dirEntryOf_eq_none_strip he)]
  rw [sideCats_filterMap_nil hpost
    (fun e he => dirEntryOf_eq_none_strip he)]
  rw [catFiles_filterMap_dir, List.nil_append, List.append_nil]
  have hfilter : ∀ x ∈ c.sections.flatMap (fun s =>
      List.replicate (sectionFiles [c.filename] s).length s.filename),
      (!(strStartsWith x ".")) = true := by
    intro x hx
    rw [List.mem_flatMap] at hx
    obtain ⟨s, hs, hxs⟩ := hx
    rw [List.eq_of_mem_replicate hxs, (hcwf.2.2 s hs).1.not_dot]
    rfl
  rw [List.filter_eq_self.mpr hfilter]
  exact firstDedup_blocks
    (fun s _ => by simp [sectionFiles]) hcwf.2.1

theorem sideSecs_filterMap_nil {secs2 : List Section} {catPath : Fpath}
    {sf : String} {r : Fpath} (hne : ∀ s2 ∈ secs2, s2.filename ≠ sf)
    {fn : Fpath × FileData → Option String}
    (hfn : ∀ e, stripPfx (catPath ++ sf :: r) e.1 = none → fn e = none) :
    (secs2.flatMap (sectionFiles catPath)).filterMap fn = [] := by
  apply filterMap_none_of_away
  intro e he
  rw [List.mem_flatMap] at he
  obtain ⟨s2, hs2, hes⟩ := he
  obtain ⟨x, rs, hp⟩ := sectionFiles_path_shape
    (List.mem_map_of_mem Prod.fst hes)
  apply hfn
  rw [hp, stripPfx_append_both]
  exact stripPfx_none_head (hne s2 hs2)

theorem catFiles_filterMap_sec {c : Category} {s : Section}
    (hnd : (c.sections.map Section.filename).Nodup) (hs : s ∈ c.sections)
    (hsl : s.filename ≠ ".group.meta") (hsl2 : s.filename ≠ "__group__.json")
    {fn : Fpath × FileData → Option String} {r : Fpath}
    (hfn : ∀ e, stripPfx ([c.filename] ++ s.filename :: r) e.1 = none →
      fn e = none) :
    (categoryFiles c).filterMap fn =
      (sectionFiles [c.filename] s).filterMap fn := by
  obtain ⟨pre, post, hsplit, hpre, hpost⟩ :=
    split_of_nodup_key Section.filename hnd hs
  have hg1 : fn (groupMetaPath [c.filename],
      FileData.jsn (sortByKey c.meta)) = none := by
    apply hfn
    show stripPfx ([c.filename] ++ s.filename :: r)
      ([c.filename] ++ [".group.meta"]) = none
    rw [stripPfx_append_both]
    exact stripPfx_none_head (Ne.symm hsl)
  have hg2 : fn (groupContentPath [c.filename],
      FileData.jsn (sortByKey (groupContentObj c.name c.description))) = none
      := by
    apply hfn
    show stripPfx ([c.filename] ++ s.filename :: r)
      ([c.filename] ++ ["__group__.json"]) = none
    rw [stripPfx_append_both]
    exact stripPfx_none_head (Ne.symm hsl2)
  rw [categoryFiles, List.filterMap_cons_none hg1,
    List.filterMap_cons_none hg2, hsplit, List.flatMap_append,
    List.flatMap_cons, List.filterMap_append, List.filterMap_append]
  rw [sideSecs_filterMap_nil hpre hfn, sideSecs_filterMap_nil hpost hfn]
  rw [List.nil_append, List.append_nil]

theorem artdir_snoc (sp : Fpath) (b : String) :
    articleDirOf sp ++ [b] = sp ++ [defaultLocale, b] := by
  rw [articleDirOf, List.append_assoc]
  rfl

theorem secFiles_filterMap_file (catPath : Fpath) (s : Section) :
    (sectionFiles catPath s).filterMap
      (fileEntryOf (catPath ++ [s.filename])) =
      [".group.meta", "__group__.json"] := by
  rw [sectionFiles]
  rw [List.filterMap_cons_some (fileEntryOf_eq_some_at rfl)]
  rw [List.filterMap_cons_some (fileEntryOf_eq_some_at rfl)]
  rw [filterMap_none_of_away ?_]
  intro e he
  rw [List.mem_flatMap] at he
  obtain ⟨a, _, hea⟩ := he
  simp only [articleFiles, List.mem_cons, List.not_mem_nil, or_false] at hea
  rcases hea with rfl | rfl | rfl <;>
    exact fileEntryOf_eq_none_deep (artdir_snoc _ _)

theorem secFiles_filterMap_dir (catPath : Fpath) (s : Section) :
    (sectionFiles catPath s).filterMap
      (dirEntryOf (catPath ++ [s.filename])) =
      s.articles.flatMap (fun _ =>
        [defaultLocale, defaultLocale, defaultLocale]) := by
  rw [sectionFiles]
  rw [List.filterMap_cons_none (dirEntryOf_eq_none_at rfl)]
  rw [List.filterMap_cons_none (dirEntryOf_eq_none_at rfl)]
  rw [List.filterMap_flatMap]
  refine flatMap_congr_mem ?_
  intro a _
  rw [articleFiles]
  rw [List.filterMap_cons_some (dirEntryOf_eq_some_deep (artdir_snoc _ _))]
  rw [List.filterMap_cons_some (dirEntryOf_eq_some_deep (artdir_snoc _ _))]
  rw [List.filterMap_cons_some (dirEntryOf_eq_some_deep (artdir_snoc _ _))]
  rfl

theorem secFiles_filterMap_artfile (catPath : Fpath) (s : Section) :
    (sectionFiles catPath s).filterMap
      (fileEntryOf (articleDirOf (catPath ++ [s.filename]))) =
      s.articles.flatMap (fun a =>
        [".article_" ++ a.filename ++ ".meta", a.filename ++ ".json",
          a.filename ++ ".mkdown"]) := by
  have hg1 : fileEntryOf (articleDirOf (catPath ++ [s.filename]))
      (groupMetaPath (catPath ++ [s.filename]),
        FileData.jsn (sortByKey s.meta)) = none := by
    apply fileEntryOf_eq_none_strip
    show stripPfx ((catPath ++ [s.filename]) ++ [defaultLocale])
      ((catPath ++ [s.filename]) ++ [".group.meta"]) = none
    rw [stripPfx_append_both]
    exact stripPfx_none_head (by decide)
  have hg2 : fileEntryOf (articleDirOf (catPath ++ [s.filename]))
      (groupContentPath (catPath ++ [s.filename]),
        FileData.jsn (sortByKey (groupContentObj s.name s.description))) =
      none := by
    apply fileEntryOf_eq_none_strip
    show stripPfx ((catPath ++ [s.filename]) ++ [defaultLocale])
      ((catPath ++ [s.filename]) ++ ["__group__.json"]) = none
    rw [stripPfx_append_both]
    exact stripPfx_none_head (by decide)
  rw [sectionFiles, List.filterMap_cons_none hg1,
    List.filterMap_cons_none hg2, List.filterMap_flatMap]
  refine flatMap_congr_mem ?_
  intro a _
  rw [articleFiles]
  rw [List.filterMap_cons_some (fileEntryOf_eq_some_at rfl)]
  rw [List.filterMap_cons_some (fileEntryOf_eq_some_at rfl)]
  rw [List.filterMap_cons_some (fileEntryOf_eq_some_at rfl)]
  rfl

theorem articleBases_flat_nodup {arts : List Article}
    (hnd : (arts.map Article.filename).Nodup) :
    (arts.flatMap (fun a => [".article_" ++ a.filename ++ ".meta",
      a.filename ++ ".json", a.filename ++ ".mkdown"])).Nodup := by
  refine nodup_flatMap_inj Article.filename hnd (fun a _ => ?_) ?_
  · refine List.nodup_cons.mpr ⟨?_, List.nodup_cons.mpr
      ⟨?_, List.nodup_singleton _⟩⟩
    · intro hmem
      rcases List.mem_cons.mp hmem with h | h
      · exact metaBase_ne_json a.filename a.filename h
      · exact metaBase_ne_mk a.filename a.filename (by simpa using h)
    · intro hmem
      exact jsonBase_ne_mk a.filename a.filename (by simpa using hmem)
  · intro a _ b _ hne p hpa hpb
    simp only [List.mem_cons, List.not_mem_nil, or_false] at hpa hpb
    rcases hpa with hpa | hpa | hpa <;> rcases hpb with hpb | hpb | hpb <;>
      rw [hpa] at hpb
    · exact hne (metaBase_inj hpb)
    · exact metaBase_ne_json a.filename b.filename hpb
    · exact metaBase_ne_mk a.filename b.filename hpb
    · exact metaBase_ne_json b.filename a.filename hpb.symm
    · exact hne (jsonBase_inj hpb)
    · exact jsonBase_ne_mk a.filename b.filename hpb
    · exact metaBase_ne_mk b.filename a.filename hpb.symm
    · exact jsonBase_ne_mk b.filename a.filename hpb.symm
    · exact hne (mkBase_inj hpb)

theorem childFiles_sec {cats : List Category} (hWF : TreeWF cats)
    {c : Category} (hc : c ∈ cats) {s : Section} (hs : s ∈ c.sections) :
    FS.childFiles (treeFiles cats) ([c.filename] ++ [s.filename]) =
      [".group.meta", "__group__.json"] := by
  obtain ⟨pre, post, hsplit, hpre, hpost⟩ :=
    split_of_nodup_key Category.filename hWF.1 hc
  have hcwf := hWF.2 c hc
  have hswf := hcwf.2.2 s hs
  have hfn : ∀ e, stripPfx (c.filename :: s.filename :: []) e.1 = none →
      fileEntryOf ([c.filename] ++ [s.filename]) e = none :=
    fun e he => fileEntryOf_eq_none_strip he
  unfold FS.childFiles
  rw [hsplit, treeFiles_split, List.filterMap_append, List.filterMap_append]
  rw [sideCats_filterMap_nil hpre hfn, sideCats_filterMap_nil hpost hfn]
  rw [catFiles_filterMap_sec hcwf.2.1 hs (slug_ne_groupMeta hswf.1)
    (slug_ne_groupContent hswf.1) hfn]
  rw [secFiles_filterMap_file, List.nil_append, List.append_nil]
  rfl

theorem childDirs_sec {cats : List Category} (hWF : TreeWF cats)
    {c : Category} (hc : c ∈ cats) {s : Section} (hs : s ∈ c.sections) :
    FS.childDirs (treeFiles cats) ([c.filename] ++ [s.filename]) =
      if s.articles.isEmpty then [] else [defaultLocale] := by
  obtain ⟨pre, post, hsplit, hpre, hpost⟩ :=
    split_of_nodup_key Category.filename hWF.1 hc
  have hcwf := hWF.2 c hc
  have hswf := hcwf.2.2 s hs
  have hfn : ∀ e, stripPfx (c.filename :: s.filename :: []) e.1 = none →
      dirEntryOf ([c.filename] ++ [s.filename]) e = none :=
    fun e he => dirEntryOf_eq_none_strip he
  unfold FS.childDirs
  rw [hsplit, treeFiles_split, List.filterMap_append, List.filterMap_append]
  rw [sideCats_filterMap_nil hpre hfn, sideCats_filterMap_nil hpost hfn]
  rw [catFiles_filterMap_sec hcwf.2.1 hs (slug_ne_groupMeta hswf.1)
    (slug_ne_groupContent hswf.1) hfn]
  rw [secFiles_filterMap_dir, List.nil_append, List.append_nil]
  cases harts : s.articles with
  | nil => rfl
  | cons a arts =>
    have hall : ∀ x ∈ (a :: arts).flatMap (fun _ =>
        [defaultLocale, defaultLocale, defaultLocale]), x = defaultLocale := by
      intro x hx
      rw [List.mem_flatMap] at hx
      obtain ⟨_, _, hm⟩ := hx
      simp only [List.mem_cons, List.not_mem_nil, or_false] at hm
      rcases hm with h | h | h <;> exact h
    have hfilter : List.filter (fun d => !(strStartsWith d "."))
        ((a :: arts).flatMap (fun _ =>
          [defaultLocale, defaultLocale, defaultLocale])) =
        (a :: arts).flatMap (fun _ =>
          [defaultLocale, defaultLocale, defaultLocale]) := by
      refine List.filter_eq_self.mpr ?_
      intro x hx
      rw [hall x hx]
      rfl
    rw [hfilter]
    refine firstDedup_const ?_ hall
    rw [List.flatMap_cons]
    simp

theorem childFiles_artdir {cats : List Category} (hWF : TreeWF cats)
    {c : Category} (hc : c ∈ cats) {s : Section} (hs : s ∈ c.sections) :
    FS.childFiles (treeFiles cats)
      (articleDirOf ([c.filename] ++ [s.filename])) =
      s.articles.flatMap (fun a =>
        [".article_" ++ a.filename ++ ".meta", a.filename ++ ".json",
          a.filename ++ ".mkdown"]) := by
  obtain ⟨pre, post, hsplit, hpre, hpost⟩ :=
    split_of_nodup_key Category.filename hWF.1 hc
  have hcwf := hWF.2 c hc
  have hswf := hcwf.2.2 s hs
  have hfn : ∀ e,
      stripPfx (c.filename :: s.filename :: [defaultLocale]) e.1 = none →
      fileEntryOf (articleDirOf ([c.filename] ++ [s.filename])) e = none := by
    intro e he
    apply fileEntryOf_eq_none_strip
    show stripPfx (([c.filename] ++ [s.filename]) ++ [defaultLocale]) e.1 =
      none
    rw [List.append_assoc]
    exact he
  unfold FS.childFiles
  rw [hsplit, treeFiles_split, List.filterMap_append, List.filterMap_append]
  rw [sideCats_filterMap_nil hpre hfn, sideCats_filterMap_nil hpost hfn]
  rw [catFiles_filterMap_sec hcwf.2.1 hs (slug_ne_groupMeta hswf.1)
    (slug_ne_groupContent hswf.1) hfn]
  rw [secFiles_filterMap_artfile, List.nil_append, List.append_nil]
  exact firstDedup_eq_self (articleBases_flat_nodup hswf.2.1)

theorem treeFiles_childDirs_root {cats : List Category} (hWF : TreeWF cats) :
    FS.childDirs (treeFiles cats) [] = cats.map Category.filename := by
  unfold FS.childDirs
  have h1 : (treeFiles cats).filterMap (dirEntryOf []) =
      cats.flatMap (fun c =>
        List.replicate (categoryFiles c).length c.filename) := by
    rw [treeFiles, List.filterMap_flatMap]
    refine flatMap_congr_mem ?_
    intro c _
    refine filterMap_const_replicate ?_
    intro e he
    obtain ⟨x, rs, hp⟩ := categoryFiles_path_shape
      (List.mem_map_of_mem Prod.fst he)
    unfold dirEntryOf
    rw [hp]
    rfl
  rw [h1]
  have hfilter : ∀ x ∈ cats.flatMap (fun c =>
      List.replicate (categoryFiles c).length c.filename),
      (!(strStartsWith x ".")) = true := by
    intro x hx
    rw [List.mem_flatMap] at hx
    obtain ⟨c, hc, hxs⟩ := hx
    rw [List.eq_of_mem_replicate hxs, ((hWF.2 c hc).1).not_dot]
    rfl
  rw [List.filter_eq_self.mpr hfilter]
  exact firstDedup_blocks (fun c _ => by simp [categoryFiles]) hWF.1

theorem sectionCtx_of_tree {cats : List Category} (hWF : TreeWF cats)
    {c : Category} (hc : c ∈ cats) {s : Section} (hs : s ∈ c.sections) :
    SectionCtx (treeFiles cats) [c.filename] s := by
  have hnd := treeFiles_paths_nodup hWF
  refine ⟨?_, ?_, ?_, ?_, ?_, ?_, ?_, ?_⟩
  · exact readJson_of_read? (read?_of_mem_nodup hnd
      (mem_treeFiles_of_cat hc (mem_categoryFiles_of_sec hs
        (List.mem_cons_self _ _))))
  · rw [← sortByKey_groupContent]
    exact readJson_of_read? (read?_of_mem_nodup hnd
      (mem_treeFiles_of_cat hc (mem_categoryFiles_of_sec hs
        (List.mem_cons_of_mem _ (List.mem_cons_self _ _)))))
  · exact childFiles_sec hWF hc hs
  · exact childDirs_sec hWF hc hs
  · exact childFiles_artdir hWF hc hs
  · intro a ha
    exact readJson_of_read? (read?_of_mem_nodup hnd
      (mem_treeFiles_of_cat hc (mem_categoryFiles_of_sec hs
        (mem_sectionFiles_of_art ha (List.mem_cons_self _ _)))))
  · intro a ha
    rw [← sortByKey_articleContent]
    exact readJson_of_read? (read?_of_mem_nodup hnd
      (mem_treeFiles_of_cat hc (mem_categoryFiles_of_sec hs
        (mem_sectionFiles_of_art ha
          (List.mem_cons_of_mem _ (List.mem_cons_self _ _))))))
  · intro a ha
    exact readText_of_read? (read?_of_mem_nodup hnd
      (mem_treeFiles_of_cat hc (mem_categoryFiles_of_sec hs
        (mem_sectionFiles_of_art ha (List.mem_cons_of_mem _
          (List.mem_cons_of_mem _ (List.mem_cons_self _ _)))))))

theorem categoryCtx_of_tree {cats : List Category} (hWF : TreeWF cats)
    {c : Category} (hc : c ∈ cats) : CategoryCtx (treeFiles cats) c := by
  have hnd := treeFiles_paths_nodup hWF
  refine ⟨?_, ?_, ?_, ?_, ?_⟩
  · exact readJson_of_read? (read?_of_mem_nodup hnd
      (mem_treeFiles_of_cat hc (List.mem_cons_self _ _)))
  · rw [← sortByKey_groupContent]
    exact readJson_of_read? (read?_of_mem_nodup hnd
      (mem_treeFiles_of_cat hc
        (List.mem_cons_of_mem _ (List.mem_cons_self _ _))))
  · exact childFiles_cat hWF hc
  · exact childDirs_cat hWF hc
  · exact fun s hs => sectionCtx_of_tree hWF hc hs

/-- Counterexample to C2 as stated: the Saver writes no translation files, and
the Loader rebuilds each entity's translation list from the entity's own
content file, always producing exactly the default-locale translation.  A
category saved with an *empty* translation list loads back with one
translation, so the loaded translation set differs from the saved one. -/
theorem c2_counterexample :
    (loaderLoad (saverSave [] [⟨"Cat", "Desc", "cat", [], [], []⟩])).map
        (fun r => r.2.map Category.translations) =
      some [[⟨defaultLocale, "Cat", "Desc"⟩]] ∧
    ([⟨"Cat", "Desc", "cat", [], [], []⟩] : List Category).map
        Category.translations = [[]] ∧
    ([[(⟨defaultLocale, "Cat", "Desc"⟩ : GroupTranslation)]] :
        List (List GroupTranslation)) ≠ [[]] :=
  ⟨rfl, rfl, by decide⟩

/-- C2 (amended): for a well-formed tree — slug filenames, sibling filenames
distinct — saving into an empty root and loading back succeeds, leaves the
tree on disk untouched, and reproduces every entity with identical `name`,
`description`/`body` and metadata up to the serializer's key ordering; each
entity's translation list, however, is not the saved one but exactly the
default-locale translation regenerated from the entity's own content
(`canonCategory`/`canonSection`/`canonArticle`). -/
theorem c2_path_roundtrip (cats : List Category) (hWF : TreeWF cats) :
    loaderLoad (saverSave [] cats) =
      some (saverSave [] cats, cats.map canonCategory) := by
  rw [saverSave_flat (treeFiles_paths_nodup hWF)]
  unfold loaderLoad
  rw [treeFiles_childDirs_root hWF]
  exact loadRootAux_ctx (fun c hc => hWF.2 c hc)
    (fun c hc => categoryCtx_of_tree hWF hc)

/-- Witness for C2: a one-category, one-section, one-article tree with slug
filenames; its well-formedness is decided and the round trip applies. -/
theorem c2_witness :
    TreeWF [⟨"Billing", "Bills", "billing",
      [⟨"Invoices", "Inv", "invoices",
        [⟨"How to pay", "Pay here", "how-to-pay", [],
          [("id", JVal.n 30)]⟩],
        [], [("id", JVal.n 20)]⟩],
      [], [("id", JVal.n 10)]⟩] ∧
    loaderLoad (saverSave [] [⟨"Billing", "Bills", "billing",
      [⟨"Invoices", "Inv", "invoices",
        [⟨"How to pay", "Pay here", "how-to-pay", [],
          [("id", JVal.n 30)]⟩],
        [], [("id", JVal.n 20)]⟩],
      [], [("id", JVal.n 10)]⟩]) =
      some (saverSave [] [⟨"Billing", "Bills", "billing",
        [⟨"Invoices", "Inv", "invoices",
          [⟨"How to pay", "Pay here", "how-to-pay", [],
            [("id", JVal.n 30)]⟩],
          [], [("id", JVal.n 20)]⟩],
        [], [("id", JVal.n 10)]⟩],
        [⟨"Billing", "Bills", "billing",
          [⟨"Invoices", "Inv", "invoices",
            [⟨"How to pay", "Pay here", "how-to-pay", [],
              [("id", JVal.n 30)]⟩],
            [], [("id", JVal.n 20)]⟩],
          [], [("id", JVal.n 10)]⟩].map canonCategory) :=
  ⟨by unfold TreeWF CategoryWF SectionWF ArticleWF SlugName; decide,
    c2_path_roundtrip _
      (by unfold TreeWF CategoryWF SectionWF ArticleWF SlugName; decide)⟩
